import Mathlib

/-!
# Verification of the qoi-rust "islands" codec

A shallow embedding of the extended QOI image codec (op-code encoder,
island detector, island codec, sizes and top-level entry points) together
with theorems about its stated properties.

The embedding follows `src/encode.rs` and `src/island.rs`. Components of the
crate that are referenced but whose sources are not present (the pixel type,
the header, the decoder, `Islands::find_islands`) are modelled from the
design document; each such definition carries a doc comment starting with
`Modelled from the spec:`.

Bytes are represented as `Nat` (with explicit `% 256` / `% 2^32` where the
machine arithmetic wraps), fallible operations return `Except`, and Rust
panics are modelled as a distinguished error value.
-/

/-- A decoded pixel value.  `Pixel<4>` holds all four components; a `Pixel<3>`
value is represented with its implicit fully-opaque alpha `0xff` (the code
never writes the alpha byte of a 3-channel pixel, and `as_rgba(0xff)` extends
it with alpha `0xff`). -/
structure Pix where
  r : Nat
  g : Nat
  b : Nat
  a : Nat
deriving DecidableEq, Repr

/-- `Pixel::new().with_a(0xff)`: the initial "previous pixel" of the codec. -/
def pixInit : Pix := ⟨0, 0, 0, 255⟩

/-- `Pixel::new()`: the all-zero pixel (initial index-cache entry). -/
def pixZero : Pix := ⟨0, 0, 0, 0⟩

/-- Modelled from the spec: `Pixel::hash_index` (pixel.rs is not in src).
A deterministic function of all components mapped into the 64-slot cache
(the standard QOI position hash `(3r+5g+7b+11a) mod 64`). -/
def hashIndex (p : Pix) : Nat :=
  (p.r * 3 + p.g * 5 + p.b * 7 + p.a * 11) % 64

/-- Wrapping byte subtraction: `x.wrapping_sub(y)` on `u8` values. -/
def wrapSub (x y : Nat) : Nat := (x + 256 - y % 256) % 256

/-- One op-code record of the encoded stream, before serialization.
Fields store the biased (already wrapped) payload values. -/
inductive Op where
  | run   (n : Nat)                -- QOI_OP_RUN, run length `n` (1 ≤ n ≤ 62)
  | index (i : Nat)                -- QOI_OP_INDEX, cache slot `i < 64`
  | diff  (dr dg db : Nat)         -- 1-byte diff, biased by +2 (each < 4)
  | luma  (dg drg dbg : Nat)       -- 2-byte diff, biases +32 / +8
  | rgb   (r g b : Nat)            -- literal RGB
  | rgba  (r g b a : Nat)          -- literal RGBA
deriving DecidableEq, Repr

/-- Byte serialization of one op (QOI wire encoding, big tag bits first). -/
def serOp : Op → List Nat
  | .run n => [0xC0 + (n - 1)]
  | .index i => [i]
  | .diff dr dg db => [0x40 + dr * 16 + dg * 4 + db]
  | .luma dg drg dbg => [0x80 + dg, drg * 16 + dbg]
  | .rgb r g b => [0xFE, r, g, b]
  | .rgba r g b a => [0xFF, r, g, b, a]

/-- How many pixels of output one op accounts for. -/
def opPixels : Op → Nat
  | .run n => n
  | _ => 1

/-- Modelled from the spec: `Pixel::encode_into` (pixel.rs is not in src).
The literal/difference tiers of §4.2 with the wrapping delta policy: a
1-byte tier for small R/G/B deltas with alpha unchanged, a 2-byte tier for
a wider green delta plus red/blue deltas relative to it, then full literals.
A 4-channel pixel whose alpha changed is emitted as a full RGBA literal. -/
def encodeInto (px prev : Pix) (nchan : Nat) : Op :=
  if nchan = 4 ∧ px.a ≠ prev.a then
    .rgba px.r px.g px.b px.a
  else
    let vr := wrapSub px.r prev.r
    let vg := wrapSub px.g prev.g
    let vb := wrapSub px.b prev.b
    let vgr := wrapSub vr vg
    let vgb := wrapSub vb vg
    if (vr + 2) % 256 < 4 ∧ (vg + 2) % 256 < 4 ∧ (vb + 2) % 256 < 4 then
      .diff ((vr + 2) % 256) ((vg + 2) % 256) ((vb + 2) % 256)
    else if (vg + 32) % 256 < 64 ∧ (vgr + 8) % 256 < 16 ∧ (vgb + 8) % 256 < 16 then
      .luma ((vg + 32) % 256) ((vgr + 8) % 256) ((vgb + 8) % 256)
    else
      .rgb px.r px.g px.b

/-- The mutable state of `encode_impl`'s per-pixel loop. -/
structure EncSt where
  index : Nat → Pix
  pxPrev : Pix
  hashPrev : Nat
  run : Nat
  indexAllowed : Bool

/-- Initial encoder state (`index`, `px_prev`, `hash_prev`, `run`,
`index_allowed` as set up at the top of `encode_impl`). -/
def encInit : EncSt :=
  { index := fun _ => pixZero
    pxPrev := pixInit
    hashPrev := hashIndex pixInit
    run := 0
    indexAllowed := false }

/-- One iteration of `encode_impl`'s loop body (the op-code part), for pixel
`px`; `isLast` is `i == n_pixels - 1`.  Returns the ops emitted and the new
state. -/
def encStep (nchan : Nat) (st : EncSt) (px : Pix) (isLast : Bool) :
    List Op × EncSt :=
  if px = st.pxPrev then
    let run := st.run + 1
    if run = 62 ∨ isLast then
      ([.run run], { st with run := 0 })
    else
      ([], { st with run := run })
  else
    let flush : List Op :=
      if st.run ≠ 0 then
        [if st.run = 1 ∧ st.indexAllowed then .index st.hashPrev
         else .run st.run]
      else []
    let h := hashIndex px
    if st.index h = px then
      (flush ++ [.index h],
       { index := st.index, pxPrev := px, hashPrev := h, run := 0,
         indexAllowed := true })
    else
      (flush ++ [encodeInto px st.pxPrev nchan],
       { index := Function.update st.index h px, pxPrev := px, hashPrev := h,
         run := 0, indexAllowed := true })

/-- The op-code stream produced by `encode_impl`'s loop over a pixel list,
starting from state `st`.  The last list element plays the role of
`i == n_pixels - 1`. -/
def encLoop (nchan : Nat) (st : EncSt) : List Pix → List Op
  | [] => []
  | px :: rest =>
    let s := encStep nchan st px rest.isEmpty
    s.1 ++ encLoop nchan s.2 rest

/-- Total number of pixels represented by an op stream. -/
def opsPixelCount (ops : List Op) : Nat :=
  (ops.map opPixels).sum

/-! ## Island detection (`island.rs`) -/

/-- `Point`: a `(row, column)` pair. -/
abbrev Point := Nat × Nat

/-- 4-connectivity of two points (up/down/left/right neighbors). -/
def adj4 (x y : Point) : Prop :=
  (x.1 = y.1 ∧ (x.2 = y.2 + 1 ∨ y.2 = x.2 + 1)) ∨
  (x.2 = y.2 ∧ (x.1 = y.1 + 1 ∨ y.1 = x.1 + 1))

instance : DecidablePred fun xy : Point × Point => adj4 xy.1 xy.2 := by
  intro xy; unfold adj4; infer_instance

instance (x y : Point) : Decidable (adj4 x y) := by
  unfold adj4; infer_instance

/-- The `Island` record: optional top-left and bottom-right corners. -/
structure Island where
  topLeft : Option Point
  btmRight : Option Point
deriving DecidableEq, Repr

/-- The `top_left` update of `bfs`'s loop body.  Both `if`s of the source
compare against (and build from) the same local copy of the old value, the
second assignment overwriting the first. -/
def updTL (tl? : Option Point) (p : Point) : Option Point :=
  match tl? with
  | none => some p
  | some tl =>
    let afterFst := if p.1 < tl.1 then some (p.1, tl.2) else some tl
    if p.2 < tl.2 then some (tl.1, p.2) else afterFst

/-- The `btm_right` update of `bfs`'s loop body (same overwrite shape). -/
def updBR (br? : Option Point) (p : Point) : Option Point :=
  match br? with
  | none => some p
  | some br =>
    let afterFst := if p.1 > br.1 then some (p.1, br.2) else some br
    if p.2 > br.2 then some (br.1, p.2) else afterFst

/-- The neighbors pushed onto the queue when `p` is absorbed: up and left
only behind a zero guard, down and right unconditionally (the width/height
guards are commented out in the source). -/
def bfsPushes (p : Point) : List Point :=
  (if p.1 > 0 then [(p.1 - 1, p.2)] else []) ++ [(p.1 + 1, p.2)] ++
  (if p.2 > 0 then [(p.1, p.2 - 1)] else []) ++ [(p.1, p.2 + 1)]

/-- State of the `bfs` work loop: the shared visited set, the island being
grown, and the FIFO work queue (`VecDeque`: pop at the head, push at the
tail). -/
structure BfsSt where
  used : List Point
  isl : Island
  q : List Point

/-- `fuel` iterations of the `while let Some(point) = q.pop_front()` loop of
`bfs`.  Each iteration either skips an already-used / non-foreground point or
absorbs a point into the island and enqueues its neighbors. -/
def bfsRun (pts : List Point) : Nat → BfsSt → BfsSt
  | 0, st => st
  | fuel + 1, st =>
    match st.q with
    | [] => st
    | p :: rest =>
      if p ∈ pts ∧ p ∉ st.used then
        bfsRun pts fuel
          { used := p :: st.used
            isl := ⟨updTL st.isl.topLeft p, updBR st.isl.btmRight p⟩
            q := rest ++ bfsPushes p }
      else
        bfsRun pts fuel { st with q := rest }

/-- Fuel sufficient for the loop to drain its queue: every absorbed point
enqueues at most 4 neighbors and each member of `pts` is absorbed at most
once. -/
def bfsBound (pts : List Point) (st : BfsSt) : Nat :=
  st.q.length + 4 * (pts.filter (fun x => ¬ x ∈ st.used)).length

/-- `bfs(points, …, used_points, island, point)`: runs the work loop to
completion from the singleton queue `[start]` and returns the final visited
set and island. -/
def bfs (pts used : List Point) (start : Point) : BfsSt :=
  bfsRun pts (bfsBound pts ⟨used, ⟨none, none⟩, [start]⟩)
    ⟨used, ⟨none, none⟩, [start]⟩

/-- The `for point in points` loop of the island builder: `todo` is the
remainder of the iteration, `used` the shared visited set; a finished
traversal contributes an island only when both corners are populated. -/
def fiGo (pts : List Point) : List Point → List Point → List Island
  | [], _ => []
  | p :: todo, used =>
    if p ∈ used then fiGo pts todo used
    else
      let res := bfs pts used p
      (match res.isl.topLeft, res.isl.btmRight with
       | some _, some _ => [res.isl]
       | _, _ => []) ++ fiGo pts todo res.used

/-- Modelled from the spec: `Islands::find_islands` is not in src (only the
sibling `Islands::try_new` is); per §4.3 it repeatedly picks an unvisited
point of its bucket and runs the iterative breadth-first traversal (`bfs`,
which is in src), collecting the populated islands. -/
def findIslands (pts : List Point) : List Island :=
  fiGo pts pts []

/-- Whether a pixel is a foreground (non-background) pixel: `px != zero_px`
compares the `N` stored bytes, so for 3-channel pixels the alpha is not
inspected. -/
def isFg (nchan : Nat) (px : Pix) : Bool :=
  if nchan = 4 then decide (px ≠ pixZero)
  else decide (¬ (px.r = 0 ∧ px.g = 0 ∧ px.b = 0))

/-- The foreground-point collection of `encode_impl`'s loop: `i` is the pixel
index and `row` the current row tracker (`col = i - row*width`, rolling over
when `col` reaches the width). -/
def collectPoints (nchan w : Nat) : Nat → Nat → List Pix → List Point
  | _, _, [] => []
  | i, row, px :: rest =>
    let col := i - row * w
    let rc : Nat × Nat := if col ≥ w then (row + 1, 0) else (row, col)
    (if isFg nchan px then [(rc.1, rc.2)] else []) ++
      collectPoints nchan w (i + 1) rc.1 rest

/-- The number of parallel workers (`threads` in `encode_impl`). -/
def numThreads : Nat := 8

/-- The islands computed by `encode_impl`: foreground points are bucketed by
`row % 8`, each bucket is searched independently, and the per-bucket island
lists are concatenated by the reduction. -/
def encodeIslands (nchan w : Nat) (pxs : List Pix) : List Island :=
  (List.range numThreads).flatMap fun b =>
    findIslands ((collectPoints nchan w 0 0 pxs).filter
      (fun p => p.1 % numThreads = b))

/-- `p` lies inside the bounding box of `isl` (both corners populated). -/
def inBB (p : Point) (isl : Island) : Prop :=
  ∃ tl br, isl.topLeft = some tl ∧ isl.btmRight = some br ∧
    tl.1 ≤ p.1 ∧ p.1 ≤ br.1 ∧ tl.2 ≤ p.2 ∧ p.2 ≤ br.2

/-- The step relation for connectivity inside a point set. -/
def connStep (pts : List Point) (x y : Point) : Prop :=
  x ∈ pts ∧ y ∈ pts ∧ adj4 x y

/-- The point set forms a single 4-connected region: every two of its points
are joined by a path of 4-neighbors staying inside the set. -/
def conn4 (pts : List Point) : Prop :=
  ∀ p ∈ pts, ∀ q ∈ pts, Relation.ReflTransGen (connStep pts) p q

/-! ## Wire format: constants, header, island codec, entry points -/

/-- Modelled from the spec: the header magic bytes (`consts.rs` is not in
src); the classic `qoif` tag. -/
def qoiMagic : List Nat := [0x71, 0x6F, 0x69, 0x66]

/-- Modelled from the spec: header byte size (magic, width, height, channels,
colorspace, payload length, island count; multi-byte fields 32-bit
big-endian). -/
def qoiHeaderSize : Nat := 22

/-- Modelled from the spec: the fixed-length all-zero padding marker. -/
def qoiPadding : List Nat := List.replicate 8 0

/-- Length of the padding marker. -/
def qoiPaddingSize : Nat := 8

/-- Modelled from the spec: the maximum-pixel-count constant bounding
`width * height`. -/
def qoiPixelsMax : Nat := 400000000

/-- `encode_max_len`: header size + pixels·channels + pixels + padding. -/
def encode_max_len (w h channels : Nat) : Nat :=
  qoiHeaderSize + w * h * channels + w * h + qoiPaddingSize

/-- 32-bit big-endian byte encoding. -/
def be32 (n : Nat) : List Nat :=
  [n / 2 ^ 24 % 256, n / 2 ^ 16 % 256, n / 2 ^ 8 % 256, n % 256]

/-- 32-bit big-endian read of (the first four bytes of) a byte list. -/
def beRead (l : List Nat) : Nat :=
  ((l.getD 0 0 * 256 + l.getD 1 0) * 256 + l.getD 2 0) * 256 + l.getD 3 0

/-- Modelled from the spec: the serialized header block (`header.rs` is not
in src).  The two size fields are back-filled `u32` casts (`% 2^32`). -/
def headerBytes (w h ch cs ne ni : Nat) : List Nat :=
  qoiMagic ++ be32 (w % 2 ^ 32) ++ be32 (h % 2 ^ 32) ++ [ch % 256, cs % 256] ++
    be32 (ne % 2 ^ 32) ++ be32 (ni % 2 ^ 32)

/-- Chunking work loop with explicit fuel (one unit per produced chunk, so
the list's length is always enough); structural recursion keeps the
definition computable by the kernel. -/
def chunksExactGo (n : Nat) : Nat → List Nat → List (List Nat)
  | 0, _ => []
  | fuel + 1, l =>
    if n = 0 ∨ l.length < n then []
    else l.take n :: chunksExactGo n fuel (l.drop n)

/-- `slice::chunks_exact(n)`: only the full `n`-length chunks. -/
def chunksExact (n : Nat) (l : List Nat) : List (List Nat) :=
  chunksExactGo n l.length l

/-- Chunking work loop of `slice::chunks(n)` with explicit fuel. -/
def chunksAllGo (n : Nat) : Nat → List Nat → List (List Nat)
  | 0, _ => []
  | fuel + 1, l =>
    if n = 0 ∨ l = [] then []
    else l.take n :: chunksAllGo n fuel (l.drop n)

/-- `slice::chunks(n)`: full chunks plus a final partial chunk. -/
def chunksAll (n : Nat) (l : List Nat) : List (List Nat) :=
  chunksAllGo n l.length l

/-- `px.read(chunk)`: build the pixel value from an `N`-byte chunk (the alpha
byte of a 3-channel pixel stays at its initial `0xff`). -/
def toPix (nchan : Nat) (c : List Nat) : Pix :=
  ⟨c.getD 0 0, c.getD 1 0, c.getD 2 0, if nchan = 4 then c.getD 3 0 else 255⟩

/-- The `N` bytes of a pixel value. -/
def pixBytes (nchan : Nat) (px : Pix) : List Nat :=
  if nchan = 4 then [px.r, px.g, px.b, px.a] else [px.r, px.g, px.b]

/-- `Islands::encode`: one island's 16-byte record, four 32-bit big-endian
integers (the source `unwrap`s the corners; an unpopulated island panics and
is handled by the caller embedding). -/
def islandBytes (isl : Island) : List Nat :=
  match isl.topLeft, isl.btmRight with
  | some tl, some br =>
    be32 (tl.1 % 2 ^ 32) ++ be32 (tl.2 % 2 ^ 32) ++
    be32 (br.1 % 2 ^ 32) ++ be32 (br.2 % 2 ^ 32)
  | _, _ => []

/-- Encoder-side failures.  `panicked` models a Rust panic (the `unwrap`ed
writer calls in `Islands::encode`). -/
inductive EncErr where
  | emptyImage
  | invalidDimensions
  | invalidImageLength
  | invalidChannels
  | outputBufferTooSmall
  | panicked
deriving DecidableEq, Repr

/-- Decoder-side failures.  `panicked` models a Rust panic (the `cast_slice`
and out-of-bounds indexing in `Islands::decode` on a partial chunk). -/
inductive DecErr where
  | invalidMagic
  | invalidChannels
  | invalidDimensions
  | unexpectedEndOfStream
  | panicked
deriving DecidableEq, Repr

/-- Modelled from the spec: the validation part of `Header::try_new`
(header.rs is not in src): `EmptyImage` when `width*height` is zero, and the
maximum-pixel-count bound on the product. -/
def headerTryNew (w h : Nat) : Except EncErr Unit :=
  if w * h = 0 then .error .emptyImage
  else if w * h > qoiPixelsMax then .error .invalidDimensions
  else .ok ()

/-- `Islands::decode`'s chunk loop: the counter is incremented and checked
against the declared count before each chunk; a full 16-byte chunk is parsed
into an island, a partial chunk panics (`cast_slice` needs a multiple of 4
and the record parse indexes four 4-byte groups). -/
def islandsDecodeGo (n : Nat) : List (List Nat) → Nat → Except DecErr (List Island)
  | [], _ => .ok []
  | c :: rest, cnt =>
    if cnt + 1 > n then .ok []
    else if c.length = 16 then
      match islandsDecodeGo n rest (cnt + 1) with
      | .error e => .error e
      | .ok tl =>
        .ok (⟨some (beRead (c.take 4), beRead ((c.drop 4).take 4)),
              some (beRead ((c.drop 8).take 4), beRead ((c.drop 12).take 4))⟩ :: tl)
    else .error .panicked

/-- `Islands::decode(data, n_islands)` over the trailing bytes. -/
def islandsDecode (data : List Nat) (n : Nat) : Except DecErr (List Island) :=
  islandsDecodeGo n (chunksAll 16 data) 0

/-- The encoder entry point (`encode_to_vec` → `Encoder::new` →
`encode_to_buf` → `encode_impl`): validates the dimensions, infers the
channel count from the buffer length, runs the op-code loop, computes the
islands, and assembles header ++ op-codes ++ island records ++ padding.
Writer capacity is the pre-allocated `encode_max_len` tail; an op-code or
padding write past it fails with `OutputBufferTooSmall`, while an island
record write past it (or an unpopulated island) hits the `unwrap`s of
`Islands::encode` and panics. -/
def encodeQoi (data : List Nat) (w h : Nat) : Except EncErr (List Nat) :=
  match headerTryNew w h with
  | .error e => .error e
  | .ok _ =>
    let np := w * h
    let nchan := data.length / np
    if np * nchan ≠ data.length then .error .invalidImageLength
    else if ¬ (nchan = 3 ∨ nchan = 4) then .error .invalidChannels
    else
      let cap := np * nchan + np + qoiPaddingSize
      let pxs := (chunksExact nchan data).map (toPix nchan)
      let opBytes := (encLoop nchan encInit pxs).flatMap serOp
      let isls := encodeIslands nchan w pxs
      if opBytes.length > cap then .error .outputBufferTooSmall
      else if ¬ isls.all (fun i => i.topLeft.isSome && i.btmRight.isSome) then
        .error .panicked
      else
        let islBytes := isls.flatMap islandBytes
        if opBytes.length + islBytes.length > cap then .error .panicked
        else if opBytes.length + islBytes.length + qoiPaddingSize > cap then
          .error .outputBufferTooSmall
        else
          .ok (headerBytes w h nchan 0
                 (opBytes.length + islBytes.length + qoiPaddingSize) isls.length ++
               opBytes ++ islBytes ++ qoiPadding)

/-- The decoder's mutable state: index cache and previous pixel. -/
structure DecSt where
  index : Nat → Pix
  pxPrev : Pix

/-- Initial decoder state. -/
def decInit : DecSt := ⟨fun _ => pixZero, pixInit⟩

/-- Modelled from the spec: one op-code dispatch of the decoder (§4.5,
decode.rs is not in src).  Reads the next op-code from the byte stream and
reconstructs the pixels it stands for (RGB / RGBA literals, INDEX, 1-byte
DIFF, 2-byte wider diff, RUN), updating the index cache and previous pixel;
a payload shorter than the op requires is an error. -/
def decStepOp (st : DecSt) : List Nat → Option (List Pix × DecSt × List Nat)
  | [] => none
  | b :: rest =>
    if b = 0xFE then
      match rest with
      | r :: g :: bl :: rest2 =>
        let px : Pix := ⟨r, g, bl, st.pxPrev.a⟩
        some ([px], ⟨Function.update st.index (hashIndex px) px, px⟩, rest2)
      | _ => none
    else if b = 0xFF then
      match rest with
      | r :: g :: bl :: a :: rest2 =>
        let px : Pix := ⟨r, g, bl, a⟩
        some ([px], ⟨Function.update st.index (hashIndex px) px, px⟩, rest2)
      | _ => none
    else if b < 64 then
      let px := st.index b
      some ([px], ⟨st.index, px⟩, rest)
    else if b < 128 then
      let px : Pix := ⟨(st.pxPrev.r + b / 16 % 4 + 254) % 256,
                       (st.pxPrev.g + b / 4 % 4 + 254) % 256,
                       (st.pxPrev.b + b % 4 + 254) % 256, st.pxPrev.a⟩
      some ([px], ⟨Function.update st.index (hashIndex px) px, px⟩, rest)
    else if b < 192 then
      match rest with
      | b2 :: rest2 =>
        let dg := b % 64
        let px : Pix := ⟨(st.pxPrev.r + dg + b2 / 16 + 472) % 256,
                         (st.pxPrev.g + dg + 224) % 256,
                         (st.pxPrev.b + dg + b2 % 16 + 472) % 256, st.pxPrev.a⟩
        some ([px], ⟨Function.update st.index (hashIndex px) px, px⟩, rest2)
      | [] => none
    else
      some (List.replicate (b - 192 + 1) st.pxPrev, st, rest)

/-- The decoder's op-code loop with explicit fuel (every op produces at
least one pixel, so `n` units of fuel always suffice). -/
def decLoopGo : Nat → DecSt → List Nat → Nat → Option (List Pix × List Nat)
  | _, _, bytes, 0 => some ([], bytes)
  | 0, _, _, _ + 1 => none
  | fuel + 1, st, bytes, n =>
    match decStepOp st bytes with
    | none => none
    | some (pxs, st2, rest) =>
      if pxs.length = 0 ∨ pxs.length > n then none
      else
        match decLoopGo fuel st2 rest (n - pxs.length) with
        | none => none
        | some (tl, rem) => some (pxs ++ tl, rem)

/-- Modelled from the spec: the decoder's op-code loop, reading ops until the
declared pixel count is reached exactly; an op-code implying more pixels than
remain to be produced is a decode error. -/
def decLoop (st : DecSt) (bytes : List Nat) (n : Nat) :
    Option (List Pix × List Nat) :=
  decLoopGo n st bytes n

/-- The decoded header record. -/
structure HeaderR where
  width : Nat
  height : Nat
  channels : Nat
  colorspace : Nat
  nEncode : Nat
  nIslands : Nat
deriving DecidableEq, Repr

/-- Modelled from the spec: the decoder entry point `decode_qoi` (decode.rs
is not in src).  Parses and validates the header, replays the op-code stream
until exactly `width*height` pixels are reconstructed, and hands the trailing
bytes to `Islands::decode` with the declared island count (the source encoder
appends the island records directly after the op stream, before the padding
marker, so the records are the leading trailing bytes). -/
def decodeQoi (bytes : List Nat) :
    Except DecErr (HeaderR × List Nat × List Island) :=
  if bytes.length < qoiHeaderSize then .error .unexpectedEndOfStream
  else if bytes.take 4 ≠ qoiMagic then .error .invalidMagic
  else
    let w := beRead ((bytes.drop 4).take 4)
    let h := beRead ((bytes.drop 8).take 4)
    let ch := (bytes.drop 12).getD 0 0
    let cs := (bytes.drop 13).getD 0 0
    let ne := beRead ((bytes.drop 14).take 4)
    let ni := beRead ((bytes.drop 18).take 4)
    if ¬ (ch = 3 ∨ ch = 4) then .error .invalidChannels
    else if w * h = 0 ∨ w * h > qoiPixelsMax then .error .invalidDimensions
    else
      match decLoop decInit (bytes.drop qoiHeaderSize) (w * h) with
      | none => .error .unexpectedEndOfStream
      | some (pxs, rest) =>
        match islandsDecode rest ni with
        | .error e => .error e
        | .ok isls => .ok (⟨w, h, ch, cs, ne, ni⟩, pxs.flatMap (pixBytes ch), isls)

deriving instance DecidableEq for Except

/-- A pixel value whose components are bytes. -/
def pixOK (px : Pix) : Prop :=
  px.r < 256 ∧ px.g < 256 ∧ px.b < 256 ∧ px.a < 256

/-- Validity of a decoded pixel list: byte components, and 3-channel pixels
carry the implicit opaque alpha of the representation. -/
def pixListOK (nchan : Nat) (pxs : List Pix) : Prop :=
  ∀ px ∈ pxs, pixOK px ∧ (nchan ≠ 4 → px.a = 255)

/-- The reachable-state invariant of the encoder loop: the run counter is
below the flush ceiling, the previous pixel is a byte pixel (opaque for
3-channel data), and once `index_allowed` is set, `hash_prev` is the hash of
the previous pixel and that cache slot holds it. -/
def encStOK (nchan : Nat) (e : EncSt) : Prop :=
  e.run ≤ 61 ∧ pixOK e.pxPrev ∧
  (e.indexAllowed = true → e.hashPrev = hashIndex e.pxPrev ∧
    e.index e.hashPrev = e.pxPrev) ∧
  (nchan ≠ 4 → e.pxPrev.a = 255)

/-! ## Theorems -/

theorem header_fields (w h ch cs ne ni : Nat) (rest : List Nat) :
    (headerBytes w h ch cs ne ni ++ rest).length = 22 + rest.length ∧
    (headerBytes w h ch cs ne ni ++ rest).take 4 = qoiMagic ∧
    ((headerBytes w h ch cs ne ni ++ rest).drop 4).take 4 = be32 (w % 2 ^ 32) ∧
    ((headerBytes w h ch cs ne ni ++ rest).drop 8).take 4 = be32 (h % 2 ^ 32) ∧
    ((headerBytes w h ch cs ne ni ++ rest).drop 12).getD 0 0 = ch % 256 ∧
    ((headerBytes w h ch cs ne ni ++ rest).drop 13).getD 0 0 = cs % 256 ∧
    ((headerBytes w h ch cs ne ni ++ rest).drop 14).take 4 = be32 (ne % 2 ^ 32) ∧
    ((headerBytes w h ch cs ne ni ++ rest).drop 18).take 4 = be32 (ni % 2 ^ 32) ∧
    (headerBytes w h ch cs ne ni ++ rest).drop 22 = rest := by
  refine ⟨?_, rfl, rfl, rfl, rfl, rfl, rfl, rfl, rfl⟩
  simp [headerBytes, qoiMagic, be32]
  omega

/-- C4: `encode` fails with `EmptyImage` exactly on zero-area inputs: for
every width, height and pixel buffer, `encodeQoi` returns the `EmptyImage`
error if and only if `width * height = 0`; in particular no nonzero-area
input — whatever its buffer — ever produces that error. -/
theorem encode_emptyImage_iff (data : List Nat) (w h : Nat) :
    encodeQoi data w h = .error .emptyImage ↔ w * h = 0 := by
  by_cases h0 : w * h = 0
  · simp [encodeQoi, headerTryNew, h0]
  · simp only [encodeQoi, headerTryNew, h0, if_neg, if_false]
    split_ifs <;> simp

/-- C2 (code bug): whenever the encoder does return bytes, their number is
within `encode_max_len` (first conjunct, proved in general — the output is
capped by the pre-allocated tail budget, islands included), so the only way
the source can violate the asserted size bound is by failing to produce
output; and it does: on the valid 1×1 3-channel image `[1,1,1]` the bytes
required (header, op-codes, island record, padding) exceed `encode_max_len`,
whose formula omits the island records, and `encodeQoi` panics at the
`unwrap`s in `Islands::encode` instead of producing output within the
bound. -/
theorem encode_size_bound_fails :
    (∀ (data : List Nat) (w h : Nat) (out : List Nat),
        encodeQoi data w h = .ok out →
        out.length ≤ encode_max_len w h (data.length / (w * h))) ∧
    (encodeQoi [1, 1, 1] 1 1 = .error .panicked ∧
     encode_max_len 1 1 3 <
       qoiHeaderSize +
       ((encLoop 3 encInit ((chunksExact 3 [1, 1, 1]).map (toPix 3))).flatMap
         serOp).length +
       ((encodeIslands 3 1 ((chunksExact 3 [1, 1, 1]).map (toPix 3))).flatMap
         islandBytes).length +
       qoiPaddingSize) := by
  refine ⟨?_, by decide⟩
  intro data w h out henc
  by_cases hz : w * h = 0
  · rw [encodeQoi, headerTryNew, if_pos hz] at henc
    simp at henc
  by_cases hmax : w * h > qoiPixelsMax
  · rw [encodeQoi, headerTryNew, if_neg hz, if_pos hmax] at henc
    simp at henc
  have hHT : headerTryNew w h = .ok () := by
    rw [headerTryNew, if_neg hz, if_neg hmax]
  rw [encodeQoi] at henc
  simp only [hHT] at henc
  set N := data.length / (w * h) with hN
  set pxs := (chunksExact N data).map (toPix N) with hpxs
  set opB := (encLoop N encInit pxs).flatMap serOp with hopB
  set isls := encodeIslands N w pxs with hisls
  set islB := isls.flatMap islandBytes with hislB
  split_ifs at henc with hlen hch hop hpop hcap1 hcap2
  all_goals try exact Except.noConfusion henc
  rw [Except.ok.injEq] at henc
  rw [← henc]
  have hass : headerBytes w h N 0 (opB.length + islB.length + qoiPaddingSize)
        isls.length ++ opB ++ islB ++ qoiPadding =
      headerBytes w h N 0 (opB.length + islB.length + qoiPaddingSize)
        isls.length ++ (opB ++ (islB ++ qoiPadding)) := by
    simp [List.append_assoc]
  rw [hass,
    (header_fields w h N 0 (opB.length + islB.length + qoiPaddingSize)
      isls.length (opB ++ (islB ++ qoiPadding))).1]
  have hq : (opB ++ (islB ++ qoiPadding)).length =
      opB.length + (islB.length + 8) := by
    simp only [List.length_append, qoiPadding, List.length_replicate]
  rw [hq]
  simp only [encode_max_len, qoiHeaderSize, qoiPaddingSize] at hcap2 ⊢
  omega

/-- C2 witness: the success-side bound of the size theorem instantiated at
the 1×1 all-zero 3-channel image, on which the encoder succeeds. -/
theorem encode_size_bound_fails_witness :
    ∃ out, encodeQoi [0, 0, 0] 1 1 = Except.ok out ∧
      out.length ≤ encode_max_len 1 1 ([0, 0, 0].length / (1 * 1)) :=
  ⟨_, rfl, encode_size_bound_fails.1 [0, 0, 0] 1 1 _ rfl⟩

/-- C3 (failing input): `Islands::decode` with a declared count of 1 but only
8 trailing bytes panics (models the `cast_slice`/indexing panic on the
partial chunk) instead of returning a truncation error; and with a declared
count of 2 but only one full 16-byte record it silently returns the single
island with no error at all. -/
theorem islands_decode_truncation_eval :
    islandsDecode (List.replicate 8 0) 1 = .error .panicked ∧
    islandsDecode (List.replicate 16 0) 2 =
      .ok [⟨some (0, 0), some (0, 0)⟩] := by
  decide

/-- C1 (counterexample): the round-trip property fails as stated on the valid
input width 1, height 1, 3-channel buffer `[1,1,1]` — the encoder produces no
bytes at all (it panics writing the island record past the size budget), so
no decoding of its output can return the original pixels. -/
theorem qoi_roundtrip_cex :
    ¬ ∃ out, encodeQoi [1, 1, 1] 1 1 = Except.ok out ∧
      (decodeQoi out).toOption.map (fun t => t.2.1) = some [1, 1, 1] := by
  rintro ⟨out, hout, -⟩
  have hpan : encodeQoi [1, 1, 1] 1 1 = Except.error EncErr.panicked := by decide
  rw [hpan] at hout
  exact Except.noConfusion hout


/-! ### Termination of the bfs work loop (C10) -/

theorem bfsPushes_length_le (p : Point) : (bfsPushes p).length ≤ 4 := by
  unfold bfsPushes
  split_ifs <;> simp

theorem bfsRun_nil_q (pts : List Point) (fuel : Nat) (st : BfsSt)
    (h : st.q = []) : bfsRun pts fuel st = st := by
  cases fuel with
  | zero => rfl
  | succ fuel =>
    obtain ⟨used, isl, q⟩ := st
    simp only at h
    subst h
    rfl

theorem filter_notMem_cons_length_le (pts used : List Point) (p : Point) :
    (pts.filter fun x => ¬ x ∈ p :: used).length ≤
      (pts.filter fun x => ¬ x ∈ used).length := by
  rw [← List.countP_eq_length_filter, ← List.countP_eq_length_filter]
  apply List.countP_mono_left
  intro a _ ha
  simp only [decide_eq_true_eq, List.mem_cons, not_or] at ha ⊢
  exact ha.2

theorem filter_notMem_cons_length_lt (pts used : List Point) (p : Point)
    (hp : p ∈ pts) (hu : p ∉ used) :
    (pts.filter fun x => ¬ x ∈ p :: used).length <
      (pts.filter fun x => ¬ x ∈ used).length := by
  induction pts with
  | nil => simp at hp
  | cons x pts ih =>
    rcases List.mem_cons.mp hp with h | hp2
    · have hx : x = p := h.symm
      subst hx
      have h1 : decide (¬ x ∈ x :: used) = false := by simp
      have h2 : decide (¬ x ∈ used) = true := by simp [hu]
      simp only [List.filter_cons, h1, h2, Bool.false_eq_true, if_false, if_true,
        List.length_cons]
      have := filter_notMem_cons_length_le pts used x
      omega
    · by_cases hx : x ∈ used
      · have h1 : decide (¬ x ∈ p :: used) = false := by simp [hx]
        have h2 : decide (¬ x ∈ used) = false := by simp [hx]
        simp only [List.filter_cons, h1, h2, Bool.false_eq_true, if_false]
        exact ih hp2
      · by_cases hxp : x = p
        · subst hxp
          have h1 : decide (¬ x ∈ x :: used) = false := by simp
          have h2 : decide (¬ x ∈ used) = true := by simp [hx]
          simp only [List.filter_cons, h1, h2, Bool.false_eq_true, if_false, if_true,
            List.length_cons]
          have := filter_notMem_cons_length_le pts used x
          omega
        · have h1 : decide (¬ x ∈ p :: used) = true := by simp [hx, hxp]
          have h2 : decide (¬ x ∈ used) = true := by simp [hx]
          simp only [List.filter_cons, h1, h2, if_true, List.length_cons]
          have := ih hp2
          omega

theorem bfsRun_drains (pts : List Point) :
    ∀ fuel st, bfsBound pts st ≤ fuel → (bfsRun pts fuel st).q = [] := by
  intro fuel
  induction fuel with
  | zero =>
    intro st h
    unfold bfsBound at h
    have h0 : st.q.length = 0 := by omega
    have := List.length_eq_zero.mp h0
    simpa [bfsRun] using this
  | succ fuel ih =>
    rintro ⟨used, isl, q⟩ h
    unfold bfsBound at h
    simp only at h
    match q with
    | [] => simp [bfsRun]
    | p :: rest =>
      simp only [List.length_cons] at h
      show (if p ∈ pts ∧ p ∉ used then
          bfsRun pts fuel ⟨p :: used, ⟨updTL isl.topLeft p, updBR isl.btmRight p⟩,
            rest ++ bfsPushes p⟩
        else bfsRun pts fuel ⟨used, isl, rest⟩).q = []
      split_ifs with hvis
      · apply ih
        unfold bfsBound
        simp only [List.length_append]
        have h1 := bfsPushes_length_le p
        have h2 := filter_notMem_cons_length_lt pts used p hvis.1 hvis.2
        omega
      · apply ih
        unfold bfsBound
        simp only []
        omega

theorem bfsRun_stable (pts : List Point) :
    ∀ fuel k st, (bfsRun pts fuel st).q = [] →
      bfsRun pts (fuel + k) st = bfsRun pts fuel st := by
  intro fuel
  induction fuel with
  | zero =>
    intro k st h
    simp only [bfsRun] at h
    rw [Nat.zero_add, bfsRun_nil_q pts k st h]
    rfl
  | succ fuel ih =>
    rintro k ⟨used, isl, q⟩ h
    match q with
    | [] =>
      rw [bfsRun_nil_q pts _ _ (by rfl), bfsRun_nil_q pts _ _ (by rfl)]
    | p :: rest =>
      have harr : fuel + 1 + k = (fuel + k) + 1 := by omega
      rw [harr]
      show (if p ∈ pts ∧ p ∉ used then
          bfsRun pts (fuel + k) ⟨p :: used, ⟨updTL isl.topLeft p, updBR isl.btmRight p⟩,
            rest ++ bfsPushes p⟩
        else bfsRun pts (fuel + k) ⟨used, isl, rest⟩) =
        (if p ∈ pts ∧ p ∉ used then
          bfsRun pts fuel ⟨p :: used, ⟨updTL isl.topLeft p, updBR isl.btmRight p⟩,
            rest ++ bfsPushes p⟩
        else bfsRun pts fuel ⟨used, isl, rest⟩)
      have h' : (if p ∈ pts ∧ p ∉ used then
          bfsRun pts fuel ⟨p :: used, ⟨updTL isl.topLeft p, updBR isl.btmRight p⟩,
            rest ++ bfsPushes p⟩
        else bfsRun pts fuel ⟨used, isl, rest⟩).q = [] := h
      split_ifs with hvis
      · rw [if_pos hvis] at h'
        exact ih k _ h'
      · rw [if_neg hvis] at h'
        exact ih k _ h'

/-- C10: termination of `bfs`.  For any finite point set, shared visited set
and start point, the work queue of the traversal drains after finitely many
iterations: with the computed fuel bound the final queue is empty, and any
additional fuel leaves the result unchanged (so the unbounded `while let`
loop of the source reaches this state and exits).  A coordinate is expanded
only if it is an unvisited member of the point set (the loop guard), which
is what makes the bound sound. -/
theorem bfs_terminates (pts used : List Point) (start : Point) (k : Nat) :
    (bfs pts used start).q = [] ∧
    bfsRun pts (bfsBound pts ⟨used, ⟨none, none⟩, [start]⟩ + k)
      ⟨used, ⟨none, none⟩, [start]⟩ = bfs pts used start := by
  constructor
  · exact bfsRun_drains pts _ _ (Nat.le_refl _)
  · exact bfsRun_stable pts _ k _ (bfsRun_drains pts _ _ (Nat.le_refl _))

/-! ### The bounding box computed by bfs (C9) -/

theorem mem_bfsPushes_cases (x p : Point) (hx : x ∈ bfsPushes p) :
    (p.1 > 0 ∧ x = (p.1 - 1, p.2)) ∨ x = (p.1 + 1, p.2) ∨
    (p.2 > 0 ∧ x = (p.1, p.2 - 1)) ∨ x = (p.1, p.2 + 1) := by
  unfold bfsPushes at hx
  by_cases h1 : p.1 > 0 <;> by_cases h2 : p.2 > 0 <;>
    simp [h1, h2] at hx <;> tauto

theorem mem_bfsPushes_adj4 (x p : Point) (hx : x ∈ bfsPushes p) : adj4 x p := by
  rcases mem_bfsPushes_cases x p hx with ⟨h, rfl⟩ | rfl | ⟨h, rfl⟩ | rfl <;>
    simp [adj4] <;> omega

theorem adj4_shares_coord (p v : Point) (h : adj4 p v) : p.1 = v.1 ∨ p.2 = v.2 := by
  unfold adj4 at h
  tauto

theorem updTL_some_eq (a b : Nat) (p : Point) :
    updTL (some (a, b)) p =
      if p.2 < b then some (a, p.2)
      else if p.1 < a then some (p.1, b) else some (a, b) := rfl

theorem updBR_some_eq (c d : Nat) (p : Point) :
    updBR (some (c, d)) p =
      if p.2 > d then some (c, p.2)
      else if p.1 > c then some (p.1, d) else some (c, d) := rfl

theorem updTL_shared (a b : Nat) (p : Point) (h : a ≤ p.1 ∨ b ≤ p.2) :
    updTL (some (a, b)) p = some (min a p.1, min b p.2) := by
  rw [updTL_some_eq]
  rcases h with h | h <;> split_ifs <;>
    simp only [Option.some.injEq, Prod.mk.injEq] <;> omega

theorem updBR_shared (c d : Nat) (p : Point) (h : p.1 ≤ c ∨ p.2 ≤ d) :
    updBR (some (c, d)) p = some (max c p.1, max d p.2) := by
  rw [updBR_some_eq]
  rcases h with h | h <;> split_ifs <;>
    simp only [Option.some.injEq, Prod.mk.injEq] <;> omega

/-- The loop invariant of `bfs`: the visited set grows by a prefix `V` of
points of `pts`; the island is empty while nothing has been visited; once
nonempty, the island's corners are the componentwise min/max of `V`, each
coordinate attained, and every queued point is either visited or a
4-neighbor of a visited point. -/
def bfsInv (pts used0 : List Point) (start : Point) (st : BfsSt) : Prop :=
  ∃ V, st.used = V ++ used0 ∧
    (∀ v ∈ V, v ∈ pts) ∧
    (V = [] → st.isl = ⟨none, none⟩ ∧ ∀ x ∈ st.q, x = start) ∧
    (V ≠ [] → start ∈ V ∧
      ∃ a b c d, st.isl = ⟨some (a, b), some (c, d)⟩ ∧
        (∀ v ∈ V, a ≤ v.1 ∧ b ≤ v.2 ∧ v.1 ≤ c ∧ v.2 ≤ d) ∧
        (∃ v ∈ V, v.1 = a) ∧ (∃ v ∈ V, v.2 = b) ∧
        (∃ v ∈ V, v.1 = c) ∧ (∃ v ∈ V, v.2 = d) ∧
        (∀ x ∈ st.q, x ∈ V ∨ ∃ v ∈ V, adj4 x v))

theorem bfsRun_inv (pts used0 : List Point) (start : Point) :
    ∀ fuel st, bfsInv pts used0 start st →
      bfsInv pts used0 start (bfsRun pts fuel st) := by
  intro fuel
  induction fuel with
  | zero => intro st h; exact h
  | succ fuel ih =>
    rintro ⟨used, isl, q⟩ h
    match q with
    | [] => exact h
    | p :: rest =>
      show bfsInv pts used0 start
        (if p ∈ pts ∧ p ∉ used then
          bfsRun pts fuel ⟨p :: used, ⟨updTL isl.topLeft p, updBR isl.btmRight p⟩,
            rest ++ bfsPushes p⟩
        else bfsRun pts fuel ⟨used, isl, rest⟩)
      obtain ⟨V, hused, hVpts, hemp, hne⟩ := h
      split_ifs with hvis
      · -- visit step
        apply ih
        by_cases hV : V = []
        · -- first visit: p is the start point
          subst hV
          obtain ⟨hisl, hq⟩ := hemp rfl
          have hps : p = start := hq p (List.mem_cons_self p rest)
          simp only at hused hisl
          subst hisl
          refine ⟨[p], by simp [hused], by simp [hvis.1], by simp, fun _ => ⟨?_, ?_⟩⟩
          · simp [hps]
          · refine ⟨p.1, p.2, p.1, p.2, by simp [updTL, updBR], ?_, ?_, ?_, ?_, ?_, ?_⟩
            · intro v hv
              simp only [List.mem_singleton] at hv
              subst hv; omega
            · exact ⟨p, by simp⟩
            · exact ⟨p, by simp⟩
            · exact ⟨p, by simp⟩
            · exact ⟨p, by simp⟩
            · intro x hx
              rcases List.mem_append.mp hx with hx | hx
              · exact Or.inl (by simp [hq x (List.mem_cons_of_mem p hx), hps])
              · exact Or.inr ⟨p, by simp, mem_bfsPushes_adj4 x p hx⟩
        · -- subsequent visit: p shares a coordinate with some visited point
          obtain ⟨hstart, a, b, c, d, hisl, hbox, ⟨va, hva, hvaa⟩, ⟨vb, hvb, hvbb⟩,
            ⟨vc, hvc, hvcc⟩, ⟨vd, hvd, hvdd⟩, hqinv⟩ := hne hV
          simp only at hused hisl
          have hpnotV : p ∉ V := fun hmem =>
            hvis.2 (hused ▸ List.mem_append.mpr (Or.inl hmem))
          have hpadj : ∃ v ∈ V, adj4 p v := by
            rcases hqinv p (List.mem_cons_self p rest) with h | h
            · exact absurd h hpnotV
            · exact h
          obtain ⟨v, hvV, hadj⟩ := hpadj
          have hshare := adj4_shares_coord p v hadj
          have hvbox := hbox v hvV
          subst hisl
          have htl : updTL (some (a, b)) p = some (min a p.1, min b p.2) :=
            updTL_shared a b p (by omega)
          have hbr : updBR (some (c, d)) p = some (max c p.1, max d p.2) :=
            updBR_shared c d p (by omega)
          refine ⟨p :: V, by simp [hused], ?_, by simp, fun _ => ⟨?_, ?_⟩⟩
          · intro x hx
            rcases List.mem_cons.mp hx with rfl | hx
            · exact hvis.1
            · exact hVpts x hx
          · exact List.mem_cons_of_mem p hstart
          · refine ⟨min a p.1, min b p.2, max c p.1, max d p.2, by simp [htl, hbr],
              ?_, ?_, ?_, ?_, ?_, ?_⟩
            · intro x hx
              rcases List.mem_cons.mp hx with rfl | hx
              · omega
              · have := hbox x hx; omega
            · rcases Nat.le_total a p.1 with h | h
              · exact ⟨va, List.mem_cons_of_mem p hva, by omega⟩
              · exact ⟨p, List.mem_cons_self p V, by omega⟩
            · rcases Nat.le_total b p.2 with h | h
              · exact ⟨vb, List.mem_cons_of_mem p hvb, by omega⟩
              · exact ⟨p, List.mem_cons_self p V, by omega⟩
            · rcases Nat.le_total p.1 c with h | h
              · exact ⟨vc, List.mem_cons_of_mem p hvc, by omega⟩
              · exact ⟨p, List.mem_cons_self p V, by omega⟩
            · rcases Nat.le_total p.2 d with h | h
              · exact ⟨vd, List.mem_cons_of_mem p hvd, by omega⟩
              · exact ⟨p, List.mem_cons_self p V, by omega⟩
            · intro x hx
              rcases List.mem_append.mp hx with hx | hx
              · rcases hqinv x (List.mem_cons_of_mem p hx) with h | ⟨w, hw, hadjw⟩
                · exact Or.inl (List.mem_cons_of_mem p h)
                · exact Or.inr ⟨w, List.mem_cons_of_mem p hw, hadjw⟩
              · exact Or.inr ⟨p, List.mem_cons_self p V,
                  mem_bfsPushes_adj4 x p hx⟩
      · -- skip step
        apply ih
        refine ⟨V, hused, hVpts, ?_, ?_⟩
        · intro hV
          obtain ⟨h1, h2⟩ := hemp hV
          exact ⟨h1, fun x hx => h2 x (List.mem_cons_of_mem p hx)⟩
        · intro hV
          obtain ⟨hstart, a, b, c, d, hisl, hbox, h1, h2, h3, h4, hqinv⟩ := hne hV
          exact ⟨hstart, a, b, c, d, hisl, hbox, h1, h2, h3, h4,
            fun x hx => hqinv x (List.mem_cons_of_mem p hx)⟩

theorem fiGo_populated (pts : List Point) :
    ∀ todo used isl, isl ∈ fiGo pts todo used →
      isl.topLeft ≠ none ∧ isl.btmRight ≠ none := by
  intro todo
  induction todo with
  | nil => intro used isl h; simp [fiGo] at h
  | cons p todo ih =>
    intro used isl h
    rw [fiGo] at h
    split_ifs at h with hp
    · exact ih used isl h
    · rcases htl : (bfs pts used p).isl.topLeft with _ | tl <;>
        rcases hbr : (bfs pts used p).isl.btmRight with _ | br <;>
        simp only [htl, hbr, List.nil_append, List.cons_append, List.mem_cons,
          List.mem_append, List.mem_singleton] at h
      · exact ih _ isl h
      · exact ih _ isl h
      · exact ih _ isl h
      · rcases h with rfl | h
        · exact ⟨by simp [htl], by simp [hbr]⟩
        · exact ih _ isl h

/-- C9: the island grown by one breadth-first traversal.  The visited set
grows by some list `V` of points of the set; if nothing was visited both
corner fields stay `None` (and every island materialized by the detector
loop has both fields populated), and otherwise the top-left corner is the
componentwise minimum and the bottom-right corner the componentwise maximum
over the visited points — each coordinate attained by a visited point — so
top-left row ≤ bottom-right row and top-left col ≤ bottom-right col. -/
theorem bfs_bounding_box (pts used0 : List Point) (start : Point) :
    (∃ V, (bfs pts used0 start).used = V ++ used0 ∧
      (∀ v ∈ V, v ∈ pts) ∧
      (V = [] → (bfs pts used0 start).isl = ⟨none, none⟩) ∧
      (V ≠ [] → ∃ a b c d,
        (bfs pts used0 start).isl = ⟨some (a, b), some (c, d)⟩ ∧
        (∀ v ∈ V, a ≤ v.1 ∧ b ≤ v.2 ∧ v.1 ≤ c ∧ v.2 ≤ d) ∧
        (∃ v ∈ V, v.1 = a) ∧ (∃ v ∈ V, v.2 = b) ∧
        (∃ v ∈ V, v.1 = c) ∧ (∃ v ∈ V, v.2 = d) ∧
        a ≤ c ∧ b ≤ d)) ∧
    (∀ isl ∈ findIslands pts, isl.topLeft ≠ none ∧ isl.btmRight ≠ none) := by
  constructor
  · have hinit : bfsInv pts used0 start ⟨used0, ⟨none, none⟩, [start]⟩ :=
      ⟨[], by simp, by simp, fun _ => ⟨rfl, by simp⟩, fun h => absurd rfl h⟩
    obtain ⟨V, h1, h2, h3, h4⟩ := bfsRun_inv pts used0 start _ _ hinit
    refine ⟨V, h1, h2, fun hV => (h3 hV).1, fun hV => ?_⟩
    obtain ⟨_, a, b, c, d, hisl, hbox, ⟨va, hva, haa⟩, ⟨vb, hvb, hbb⟩,
      ⟨vc, hvc, hcc⟩, ⟨vd, hvd, hdd⟩, _⟩ := h4 hV
    refine ⟨a, b, c, d, hisl, hbox, ⟨va, hva, haa⟩, ⟨vb, hvb, hbb⟩,
      ⟨vc, hvc, hcc⟩, ⟨vd, hvd, hdd⟩, ?_, ?_⟩
    · have := hbox va hva; omega
    · have := hbox vb hvb; omega
  · exact fun isl h => fiGo_populated pts pts [] isl h

/-- Witness for C9 at a concrete traversal: two horizontally adjacent
points starting from the left one. -/
theorem bfs_bounding_box_witness :
    (∃ V, (bfs [(0, 0), (0, 1)] [] (0, 0)).used = V ++ [] ∧
      (∀ v ∈ V, v ∈ [(0, 0), (0, 1)]) ∧
      (V = [] → (bfs [(0, 0), (0, 1)] [] (0, 0)).isl = ⟨none, none⟩) ∧
      (V ≠ [] → ∃ a b c d,
        (bfs [(0, 0), (0, 1)] [] (0, 0)).isl = ⟨some (a, b), some (c, d)⟩ ∧
        (∀ v ∈ V, a ≤ v.1 ∧ b ≤ v.2 ∧ v.1 ≤ c ∧ v.2 ≤ d) ∧
        (∃ v ∈ V, v.1 = a) ∧ (∃ v ∈ V, v.2 = b) ∧
        (∃ v ∈ V, v.1 = c) ∧ (∃ v ∈ V, v.2 = d) ∧
        a ≤ c ∧ b ≤ d)) ∧
    (∀ isl ∈ findIslands [(0, 0), (0, 1)],
      isl.topLeft ≠ none ∧ isl.btmRight ≠ none) :=
  bfs_bounding_box [(0, 0), (0, 1)] [] (0, 0)

/-! ### Island detector helpers (C5, C6) -/

theorem bfsRun_used_mono (pts : List Point) :
    ∀ fuel st x, x ∈ st.used → x ∈ (bfsRun pts fuel st).used := by
  intro fuel
  induction fuel with
  | zero => intro st x hx; exact hx
  | succ fuel ih =>
    rintro ⟨used, isl, q⟩ x hx
    match q with
    | [] => exact hx
    | p :: rest =>
      show x ∈ (if p ∈ pts ∧ p ∉ used then
          bfsRun pts fuel ⟨p :: used, ⟨updTL isl.topLeft p, updBR isl.btmRight p⟩,
            rest ++ bfsPushes p⟩
        else bfsRun pts fuel ⟨used, isl, rest⟩).used
      split_ifs with hvis
      · exact ih _ x (List.mem_cons_of_mem p hx)
      · exact ih _ x hx

theorem bfs_start_mem (pts used0 : List Point) (start : Point)
    (hs : start ∈ pts) (hu : start ∉ used0) :
    start ∈ (bfs pts used0 start).used := by
  unfold bfs
  obtain ⟨k, hk⟩ : ∃ k, bfsBound pts ⟨used0, ⟨none, none⟩, [start]⟩ = k + 1 :=
    ⟨4 * (pts.filter fun x => ¬ x ∈ used0).length, by simp [bfsBound]; omega⟩
  rw [hk]
  have hstep : bfsRun pts (k + 1) ⟨used0, ⟨none, none⟩, [start]⟩ =
      bfsRun pts k ⟨start :: used0, ⟨updTL none start, updBR none start⟩,
        [] ++ bfsPushes start⟩ := by
    show (if start ∈ pts ∧ start ∉ used0 then _ else _) = _
    rw [if_pos ⟨hs, hu⟩]
  rw [hstep]
  exact bfsRun_used_mono pts k _ start (by simp)

/-- Full specification of one traversal: the newly visited points `V` are
points of the set, contain the start point whenever it is an unvisited set
member, and determine the island exactly (empty ↔ no corners; otherwise the
componentwise min/max corners, each coordinate attained). -/
theorem bfs_spec (pts used0 : List Point) (start : Point) :
    ∃ V, (bfs pts used0 start).used = V ++ used0 ∧
      (∀ v ∈ V, v ∈ pts) ∧
      (start ∈ pts → start ∉ used0 → start ∈ V) ∧
      (V = [] → (bfs pts used0 start).isl = ⟨none, none⟩) ∧
      (V ≠ [] → ∃ a b c d,
        (bfs pts used0 start).isl = ⟨some (a, b), some (c, d)⟩ ∧
        (∀ v ∈ V, a ≤ v.1 ∧ b ≤ v.2 ∧ v.1 ≤ c ∧ v.2 ≤ d) ∧
        (∃ v ∈ V, v.1 = a) ∧ (∃ v ∈ V, v.2 = b) ∧
        (∃ v ∈ V, v.1 = c) ∧ (∃ v ∈ V, v.2 = d)) := by
  have hinit : bfsInv pts used0 start ⟨used0, ⟨none, none⟩, [start]⟩ :=
    ⟨[], by simp, by simp, fun _ => ⟨rfl, by simp⟩, fun h => absurd rfl h⟩
  obtain ⟨V, h1, h2, h3, h4⟩ := bfsRun_inv pts used0 start _ _ hinit
  refine ⟨V, h1, h2, fun hs hu => ?_, fun hV => (h3 hV).1, fun hV => ?_⟩
  · have hmem := bfs_start_mem pts used0 start hs hu
    unfold bfs at hmem
    rw [h1] at hmem
    rcases List.mem_append.mp hmem with h | h
    · exact h
    · exact absurd h hu
  · obtain ⟨_, a, b, c, d, hisl, hbox, ha, hb, hc, hd, _⟩ := h4 hV
    exact ⟨a, b, c, d, hisl, hbox, ha, hb, hc, hd⟩

theorem fiGo_covers (pts : List Point) :
    ∀ todo used p, (∀ y ∈ todo, y ∈ pts) → p ∈ todo → p ∉ used →
      ∃ isl ∈ fiGo pts todo used, inBB p isl := by
  intro todo
  induction todo with
  | nil => intro used p _ hp; simp at hp
  | cons x todo ih =>
    intro used p hsub hp hu
    rw [fiGo]
    split_ifs with hx
    · rcases List.mem_cons.mp hp with rfl | hp2
      · exact absurd hx hu
      · exact ih used p (fun y hy => hsub y (List.mem_cons_of_mem x hy)) hp2 hu
    · obtain ⟨V, hused, hVpts, hstart, hemp, hne⟩ := bfs_spec pts used x
      have hxV : x ∈ V := hstart (hsub x (List.mem_cons_self x todo)) hx
      have hVne : V ≠ [] := fun h => by simp [h] at hxV
      obtain ⟨a, b, c, d, hisl, hbox, _, _, _, _⟩ := hne hVne
      have htl : (bfs pts used x).isl.topLeft = some (a, b) := by rw [hisl]
      have hbr : (bfs pts used x).isl.btmRight = some (c, d) := by rw [hisl]
      by_cases hpV : p ∈ V
      · refine ⟨(bfs pts used x).isl, ?_, ?_⟩
        · simp only [htl, hbr, List.cons_append, List.nil_append, List.mem_cons]
          left
          trivial
        · have := hbox p hpV
          exact ⟨(a, b), (c, d), htl, hbr, this.1, this.2.2.1,
            this.2.1, this.2.2.2⟩
      · have hpu : p ∉ (bfs pts used x).used := by
          rw [hused]
          intro hmem
          rcases List.mem_append.mp hmem with h | h
          · exact hpV h
          · exact hu h
        have hp2 : p ∈ todo := by
          rcases List.mem_cons.mp hp with rfl | h
          · exact absurd hxV hpV
          · exact h
        obtain ⟨isl, hmem, hbb⟩ :=
          ih (bfs pts used x).used p
            (fun y hy => hsub y (List.mem_cons_of_mem x hy)) hp2 hpu
        refine ⟨isl, ?_, hbb⟩
        simp only [htl, hbr, List.cons_append, List.nil_append, List.mem_cons]
        right
        exact hmem

theorem fiGo_corners (pts : List Point) :
    ∀ todo used isl, isl ∈ fiGo pts todo used →
      ∃ a b c d, isl = ⟨some (a, b), some (c, d)⟩ ∧
        (∃ v ∈ pts, v.1 = a) ∧ (∃ v ∈ pts, v.1 = c) ∧ a ≤ c ∧ b ≤ d := by
  intro todo
  induction todo with
  | nil => intro used isl h; simp [fiGo] at h
  | cons x todo ih =>
    intro used isl h
    rw [fiGo] at h
    split_ifs at h with hx
    · exact ih used isl h
    · obtain ⟨V, hused, hVpts, hstart, hemp, hne⟩ := bfs_spec pts used x
      by_cases hVe : V = []
      · have htl : (bfs pts used x).isl.topLeft = none := by rw [hemp hVe]
        have hbr : (bfs pts used x).isl.btmRight = none := by rw [hemp hVe]
        simp only [htl, hbr, List.nil_append] at h
        exact ih _ isl h
      · obtain ⟨a, b, c, d, hisl, hbox, ⟨va, hva, haa⟩, ⟨vb, hvb, hbb⟩,
          ⟨vc, hvc, hcc⟩, ⟨vd, hvd, hdd⟩⟩ := hne hVe
        have htl : (bfs pts used x).isl.topLeft = some (a, b) := by rw [hisl]
        have hbr : (bfs pts used x).isl.btmRight = some (c, d) := by rw [hisl]
        simp only [htl, hbr, List.cons_append, List.nil_append, List.mem_cons] at h
        rcases h with rfl | h
        · refine ⟨a, b, c, d, hisl, ⟨va, hVpts va hva, haa⟩,
            ⟨vc, hVpts vc hvc, hcc⟩, ?_, ?_⟩
          · have := hbox va hva; omega
          · have := hbox vb hvb; omega
        · exact ih _ isl h

/-! ### A single foreground pixel yields a single point island (C5) -/

theorem rowcol_step (w i : Nat) (hw : 0 < w) :
    (if i - ((i - 1) / w) * w ≥ w then ((i - 1) / w + 1, 0)
     else ((i - 1) / w, i - ((i - 1) / w) * w)) = (i / w, i % w) := by
  cases i with
  | zero =>
    have h0 : (0 : Nat) - (0 - 1) / w * w = 0 := by simp
    rw [h0, if_neg (by omega)]
    simp
  | succ j =>
    have hj : (j + 1 - 1) = j := rfl
    rw [hj]
    set q := j / w with hq1
    set r := j % w with hr1
    have hq : w * q + r = j := Nat.div_add_mod j w
    have hr : r < w := Nat.mod_lt j hw
    have hcol : j + 1 - q * w = r + 1 := by
      rw [Nat.mul_comm q w]
      omega
    rw [hcol]
    by_cases hfull : r + 1 = w
    · rw [if_pos (by omega)]
      have hval : j + 1 = w * (q + 1) := by
        rw [Nat.mul_add, Nat.mul_one]
        omega
      rw [hval, Nat.mul_div_cancel_left _ hw, Nat.mul_mod_right]
    · rw [if_neg (by omega)]
      have hval : j + 1 = (r + 1) + w * q := by omega
      rw [hval, Nat.add_mul_div_left _ _ hw, Nat.add_mul_mod_self_left,
        Nat.div_eq_of_lt (by omega), Nat.mod_eq_of_lt (by omega)]
      simp

theorem collectPoints_single (nchan w : Nat) (hw : 0 < w) (k : Nat) :
    ∀ (pxs : List Pix) (i : Nat),
      (∀ j (hj : j < pxs.length),
        (isFg nchan (pxs.get ⟨j, hj⟩) = true ↔ i + j = k)) →
      collectPoints nchan w i ((i - 1) / w) pxs =
        if i ≤ k ∧ k < i + pxs.length then [(k / w, k % w)] else [] := by
  intro pxs
  induction pxs with
  | nil =>
    intro i _
    rw [if_neg (by simp)]
    rfl
  | cons px pxs ih =>
    intro i hfg
    have hstep : collectPoints nchan w i ((i - 1) / w) (px :: pxs) =
        (if isFg nchan px then [(i / w, i % w)] else []) ++
          collectPoints nchan w (i + 1) (i / w) pxs := by
      show (if isFg nchan px then
          [((if i - ((i - 1) / w) * w ≥ w then ((i - 1) / w + 1, 0)
             else ((i - 1) / w, i - ((i - 1) / w) * w)).1,
            (if i - ((i - 1) / w) * w ≥ w then ((i - 1) / w + 1, 0)
             else ((i - 1) / w, i - ((i - 1) / w) * w)).2)] else []) ++
          collectPoints nchan w (i + 1)
            (if i - ((i - 1) / w) * w ≥ w then ((i - 1) / w + 1, 0)
             else ((i - 1) / w, i - ((i - 1) / w) * w)).1 pxs = _
      rw [rowcol_step w i hw]
    rw [hstep]
    have hrec : collectPoints nchan w (i + 1) (i / w) pxs =
        if i + 1 ≤ k ∧ k < i + 1 + pxs.length then [(k / w, k % w)] else [] := by
      have := ih (i + 1) (fun j hj => by
        have h2 := hfg (j + 1) (by simpa using Nat.succ_lt_succ hj)
        simp only [List.get_cons_succ] at h2
        rw [h2]
        omega)
      simpa using this
    rw [hrec]
    have hfg0 := hfg 0 (by simp)
    simp only [List.get_cons_zero, Nat.add_zero] at hfg0
    by_cases hik : i = k
    · have hpx : isFg nchan px = true := hfg0.mpr hik
      rw [hpx, if_pos rfl, if_neg (by omega), if_pos (by simp; omega)]
      subst hik
      simp
    · have hpx : isFg nchan px = false := by
        cases hb : isFg nchan px
        · rfl
        · exact absurd (hfg0.mp hb) hik
      rw [hpx]
      simp only [Bool.false_eq_true, if_false, List.nil_append]
      split_ifs with h1 h2 h2 <;> first | rfl | (exfalso; simp at h1 h2; omega)

theorem findIslands_singleton (p : Point) :
    findIslands [p] = [⟨some p, some p⟩] := by
  obtain ⟨V, hused, hVpts, hstart, _, hne⟩ := bfs_spec [p] [] p
  have hpV : p ∈ V := hstart (by simp) (by simp)
  have hVne : V ≠ [] := fun h => by simp [h] at hpV
  obtain ⟨a, b, c, d, hisl, hbox, ⟨va, hva, haa⟩, ⟨vb, hvb, hbb⟩,
    ⟨vc, hvc, hcc⟩, ⟨vd, hvd, hdd⟩⟩ := hne hVne
  have hall : ∀ v ∈ V, v = p := fun v hv => by
    have := hVpts v hv
    simpa using this
  have ha : a = p.1 := by rw [← haa, hall va hva]
  have hb2 : b = p.2 := by rw [← hbb, hall vb hvb]
  have hc : c = p.1 := by rw [← hcc, hall vc hvc]
  have hd2 : d = p.2 := by rw [← hdd, hall vd hvd]
  subst ha hb2 hc hd2
  have hisl2 : (bfs [p] [] p).isl = ⟨some p, some p⟩ := by rw [hisl]
  unfold findIslands
  rw [fiGo]
  rw [if_neg (by simp)]
  have htl : (bfs [p] [] p).isl.topLeft = some p := by rw [hisl2]
  have hbr : (bfs [p] [] p).isl.btmRight = some p := by rw [hisl2]
  simp only [htl, hbr, List.cons_append, List.nil_append]
  have hrest : fiGo [p] [] (bfs [p] [] p).used = [] := rfl
  rw [hrest, hisl2]

theorem flatMap_range_single {α : Type} (m : Nat) (hm : m < 8) (l : List α) :
    ((List.range 8).flatMap fun b => if b = m then l else []) = l := by
  interval_cases m <;> simp [List.range_succ]

/-- C5: a buffer whose single foreground pixel sits at index `k` — row
`r = k / w`, column `c = k % w` — produces exactly one island, whose
top-left and bottom-right corners both equal `(r, c)`. -/
theorem single_pixel_single_island (nchan w hh : Nat) (pxs : List Pix)
    (k r c : Nat) (hw : 0 < w) (hlen : pxs.length = w * hh)
    (hk : k < pxs.length)
    (hfg : ∀ j (hj : j < pxs.length),
      (isFg nchan (pxs.get ⟨j, hj⟩) = true ↔ j = k))
    (hr : r = k / w) (hc : c = k % w) :
    encodeIslands nchan w pxs = [⟨some (r, c), some (r, c)⟩] := by
  subst hr hc
  have hcollect : collectPoints nchan w 0 0 pxs = [(k / w, k % w)] := by
    have h := collectPoints_single nchan w hw k pxs 0
      (fun j hj => by rw [hfg j hj]; omega)
    rw [if_pos ⟨Nat.zero_le k, by omega⟩] at h
    rw [show (0 - 1) / w = 0 by simp] at h
    exact h
  unfold encodeIslands
  rw [hcollect]
  simp only [numThreads]
  have hfun : ∀ b, findIslands (([((k / w), k % w)] :
      List Point).filter fun p => p.1 % 8 = b) =
      if b = (k / w) % 8 then [⟨some (k / w, k % w), some (k / w, k % w)⟩]
      else [] := by
    intro b
    by_cases hb : (k / w) % 8 = b
    · rw [if_pos hb.symm]
      have : (([((k / w), k % w)] : List Point).filter
          fun p => p.1 % 8 = b) = [((k / w), k % w)] := by
        simp [List.filter, hb]
      rw [this, findIslands_singleton]
    · rw [if_neg (Ne.symm hb)]
      have : (([((k / w), k % w)] : List Point).filter
          fun p => p.1 % 8 = b) = [] := by
        simp [List.filter, hb]
      rw [this]
      rfl
  simp only [hfun]
  exact flatMap_range_single ((k / w) % 8) (Nat.mod_lt _ (by omega)) _

/-- Witness for C5: a 2×2 3-channel image whose only foreground pixel is at
index 2, i.e. row 1, column 0. -/
theorem single_pixel_single_island_witness :
    encodeIslands 3 2 [⟨0, 0, 0, 255⟩, ⟨0, 0, 0, 255⟩, ⟨5, 6, 7, 255⟩,
      ⟨0, 0, 0, 255⟩] = [⟨some (1, 0), some (1, 0)⟩] :=
  single_pixel_single_island 3 2 2
    [⟨0, 0, 0, 255⟩, ⟨0, 0, 0, 255⟩, ⟨5, 6, 7, 255⟩, ⟨0, 0, 0, 255⟩]
    2 1 0 (by decide) (by decide) (by decide) (by decide) (by decide) (by decide)

/-! ### A region straddling two row buckets splits into islands (C6) -/

theorem adj4_symm (x y : Point) (h : adj4 x y) : adj4 y x := by
  unfold adj4 at h ⊢
  omega

theorem two_mem_le_length {α : Type} (l : List α) (x y : α)
    (hx : x ∈ l) (hy : y ∈ l) (hxy : x ≠ y) : 2 ≤ l.length := by
  match l with
  | [] => simp at hx
  | [a] =>
    simp only [List.mem_singleton] at hx hy
    exact absurd (hx.trans hy.symm) hxy
  | a :: b :: t => simp only [List.length_cons]; omega

theorem mem_encodeIslands_of_bucket (nchan w : Nat) (pxs : List Pix)
    (b : Nat) (hb : b < numThreads) (isl : Island)
    (h : isl ∈ findIslands ((collectPoints nchan w 0 0 pxs).filter
      (fun p => p.1 % numThreads = b))) :
    isl ∈ encodeIslands nchan w pxs := by
  unfold encodeIslands
  exact List.mem_flatMap.mpr ⟨b, List.mem_range.mpr hb, h⟩

/-- C6 (amended): if the foreground points of an input form one 4-connected
region whose rows meet two different row buckets (`row % 8`), the encoder
reports at least two islands — cross-bucket connectivity is never merged:
every reported island has its two corner rows in a single bucket — and the
union of the reported bounding boxes covers the whole region. -/
theorem bucket_straddle_islands (nchan w : Nat) (pxs : List Pix)
    (p1 p2 : Point)
    (h1 : p1 ∈ collectPoints nchan w 0 0 pxs)
    (h2 : p2 ∈ collectPoints nchan w 0 0 pxs)
    (hb : p1.1 % numThreads ≠ p2.1 % numThreads)
    (hconn : conn4 (collectPoints nchan w 0 0 pxs)) :
    2 ≤ (encodeIslands nchan w pxs).length ∧
    (∀ p ∈ collectPoints nchan w 0 0 pxs,
      ∃ isl ∈ encodeIslands nchan w pxs, inBB p isl) ∧
    (∀ isl ∈ encodeIslands nchan w pxs, ∃ a b c d,
      isl = ⟨some (a, b), some (c, d)⟩ ∧
      a % numThreads = c % numThreads) := by
  have hcover : ∀ p ∈ collectPoints nchan w 0 0 pxs,
      ∃ isl ∈ findIslands ((collectPoints nchan w 0 0 pxs).filter
        (fun q => q.1 % numThreads = p.1 % numThreads)), inBB p isl := by
    intro p hp
    apply fiGo_covers _ _ [] p (fun y hy => hy)
    · exact List.mem_filter.mpr ⟨hp, by simp⟩
    · simp
  have hcorner : ∀ b, ∀ isl ∈ findIslands ((collectPoints nchan w 0 0 pxs).filter
      (fun q => q.1 % numThreads = b)), ∃ x y z t,
      isl = ⟨some (x, y), some (z, t)⟩ ∧
      x % numThreads = b ∧ z % numThreads = b := by
    intro b isl hisl
    obtain ⟨x, y, z, t, heq, ⟨va, hva, haa⟩, ⟨vc, hvc, hcc⟩, _, _⟩ :=
      fiGo_corners _ _ _ isl hisl
    have hva2 := (List.mem_filter.mp hva).2
    have hvc2 := (List.mem_filter.mp hvc).2
    simp only [decide_eq_true_eq] at hva2 hvc2
    exact ⟨x, y, z, t, heq, by rw [← haa]; exact hva2, by rw [← hcc]; exact hvc2⟩
  refine ⟨?_, ?_, ?_⟩
  · obtain ⟨isl1, hm1, _⟩ := hcover p1 h1
    obtain ⟨isl2, hm2, _⟩ := hcover p2 h2
    obtain ⟨x1, y1, z1, t1, he1, hx1, _⟩ := hcorner _ isl1 hm1
    obtain ⟨x2, y2, z2, t2, he2, hx2, _⟩ := hcorner _ isl2 hm2
    have hne : isl1 ≠ isl2 := by
      intro h
      rw [he1, he2] at h
      injection h with htl hbr
      injection htl with htl
      injection htl with hx hy
      apply hb
      rw [← hx1, ← hx2, hx]
    exact two_mem_le_length _ isl1 isl2
      (mem_encodeIslands_of_bucket nchan w pxs _
        (Nat.mod_lt _ (by unfold numThreads; omega)) isl1 hm1)
      (mem_encodeIslands_of_bucket nchan w pxs _
        (Nat.mod_lt _ (by unfold numThreads; omega)) isl2 hm2)
      hne
  · intro p hp
    obtain ⟨isl, hm, hbb⟩ := hcover p hp
    exact ⟨isl, mem_encodeIslands_of_bucket nchan w pxs _
      (Nat.mod_lt _ (by unfold numThreads; omega)) isl hm, hbb⟩
  · intro isl hisl
    unfold encodeIslands at hisl
    obtain ⟨b, _, hmem⟩ := List.mem_flatMap.mp hisl
    obtain ⟨x, y, z, t, heq, hx, hz⟩ := hcorner b isl hmem
    exact ⟨x, y, z, t, heq, by rw [hx, hz]⟩

/-- C6 (counterexample to the claim as stated): a U-shaped 4-connected
region in a 3×2 image — foreground at (0,0), (0,2), (1,0), (1,1), (1,2) —
spans row buckets 0 and 1, yet the encoder reports three islands, not two:
row 0's points are not adjacent inside their bucket. -/
theorem bucket_straddle_cex :
    ((0, 0) : Point) ∈ collectPoints 3 3 0 0
      [⟨1, 1, 1, 255⟩, ⟨0, 0, 0, 255⟩, ⟨1, 1, 1, 255⟩,
       ⟨1, 1, 1, 255⟩, ⟨1, 1, 1, 255⟩, ⟨1, 1, 1, 255⟩] ∧
    ((1, 0) : Point) ∈ collectPoints 3 3 0 0
      [⟨1, 1, 1, 255⟩, ⟨0, 0, 0, 255⟩, ⟨1, 1, 1, 255⟩,
       ⟨1, 1, 1, 255⟩, ⟨1, 1, 1, 255⟩, ⟨1, 1, 1, 255⟩] ∧
    ((0, 0) : Point).1 % numThreads ≠ ((1, 0) : Point).1 % numThreads ∧
    conn4 (collectPoints 3 3 0 0
      [⟨1, 1, 1, 255⟩, ⟨0, 0, 0, 255⟩, ⟨1, 1, 1, 255⟩,
       ⟨1, 1, 1, 255⟩, ⟨1, 1, 1, 255⟩, ⟨1, 1, 1, 255⟩]) ∧
    (encodeIslands 3 3
      [⟨1, 1, 1, 255⟩, ⟨0, 0, 0, 255⟩, ⟨1, 1, 1, 255⟩,
       ⟨1, 1, 1, 255⟩, ⟨1, 1, 1, 255⟩, ⟨1, 1, 1, 255⟩]).length = 3 := by
  refine ⟨by decide, by decide, by decide, ?_, by decide⟩
  have hL : collectPoints 3 3 0 0
      [⟨1, 1, 1, 255⟩, ⟨0, 0, 0, 255⟩, ⟨1, 1, 1, 255⟩,
       ⟨1, 1, 1, 255⟩, ⟨1, 1, 1, 255⟩, ⟨1, 1, 1, 255⟩] =
      [(0, 0), (0, 2), (1, 0), (1, 1), (1, 2)] := by decide
  rw [hL]
  unfold conn4
  have mk : ∀ x y : Point, x ∈ ([(0, 0), (0, 2), (1, 0), (1, 1), (1, 2)] :
      List Point) → y ∈ ([(0, 0), (0, 2), (1, 0), (1, 1), (1, 2)] :
      List Point) → adj4 x y →
      connStep [(0, 0), (0, 2), (1, 0), (1, 1), (1, 2)] x y :=
    fun x y a b c => ⟨a, b, c⟩
  have hC : Relation.ReflTransGen
      (connStep [(0, 0), (0, 2), (1, 0), (1, 1), (1, 2)]) (1, 1) (1, 0) :=
    Relation.ReflTransGen.single (mk _ _ (by decide) (by decide) (by decide))
  have hE : Relation.ReflTransGen
      (connStep [(0, 0), (0, 2), (1, 0), (1, 1), (1, 2)]) (1, 1) (1, 2) :=
    Relation.ReflTransGen.single (mk _ _ (by decide) (by decide) (by decide))
  have hA : Relation.ReflTransGen
      (connStep [(0, 0), (0, 2), (1, 0), (1, 1), (1, 2)]) (1, 1) (0, 0) :=
    hC.trans (Relation.ReflTransGen.single
      (mk _ _ (by decide) (by decide) (by decide)))
  have hB : Relation.ReflTransGen
      (connStep [(0, 0), (0, 2), (1, 0), (1, 1), (1, 2)]) (1, 1) (0, 2) :=
    hE.trans (Relation.ReflTransGen.single
      (mk _ _ (by decide) (by decide) (by decide)))
  have hD : Relation.ReflTransGen
      (connStep [(0, 0), (0, 2), (1, 0), (1, 1), (1, 2)]) (1, 1) (1, 1) :=
    Relation.ReflTransGen.refl
  have hsy : Symmetric (Relation.ReflTransGen
      (connStep [(0, 0), (0, 2), (1, 0), (1, 1), (1, 2)])) :=
    Relation.ReflTransGen.symmetric
      (fun x y hxy => ⟨hxy.2.1, hxy.1, adj4_symm x y hxy.2.2⟩)
  intro p hp q hq
  fin_cases hp <;> fin_cases hq <;>
    exact Relation.ReflTransGen.trans
      (hsy (by first | exact hA | exact hB | exact hC | exact hD | exact hE))
      (by first | exact hA | exact hB | exact hC | exact hD | exact hE)

/-- Witness for C6 at a concrete input: a 1×2 column of two foreground
pixels, rows 0 and 1 in different buckets. -/
theorem bucket_straddle_islands_witness :
    2 ≤ (encodeIslands 3 1 [⟨1, 1, 1, 255⟩, ⟨1, 1, 1, 255⟩]).length ∧
    (∀ p ∈ collectPoints 3 1 0 0 [⟨1, 1, 1, 255⟩, ⟨1, 1, 1, 255⟩],
      ∃ isl ∈ encodeIslands 3 1 [⟨1, 1, 1, 255⟩, ⟨1, 1, 1, 255⟩], inBB p isl) ∧
    (∀ isl ∈ encodeIslands 3 1 [⟨1, 1, 1, 255⟩, ⟨1, 1, 1, 255⟩], ∃ a b c d,
      isl = ⟨some (a, b), some (c, d)⟩ ∧
      a % numThreads = c % numThreads) := by
  apply bucket_straddle_islands 3 1 [⟨1, 1, 1, 255⟩, ⟨1, 1, 1, 255⟩]
    (0, 0) (1, 0) (by decide) (by decide) (by decide)
  have hL : collectPoints 3 1 0 0 [⟨1, 1, 1, 255⟩, ⟨1, 1, 1, 255⟩] =
      [(0, 0), (1, 0)] := by decide
  rw [hL]
  unfold conn4
  have mk : ∀ x y : Point, x ∈ ([(0, 0), (1, 0)] : List Point) →
      y ∈ ([(0, 0), (1, 0)] : List Point) → adj4 x y →
      connStep [(0, 0), (1, 0)] x y := fun x y a b c => ⟨a, b, c⟩
  have hA : Relation.ReflTransGen (connStep [(0, 0), (1, 0)]) (0, 0) (0, 0) :=
    Relation.ReflTransGen.refl
  have hB : Relation.ReflTransGen (connStep [(0, 0), (1, 0)]) (0, 0) (1, 0) :=
    Relation.ReflTransGen.single (mk _ _ (by decide) (by decide) (by decide))
  have hsy : Symmetric (Relation.ReflTransGen (connStep [(0, 0), (1, 0)])) :=
    Relation.ReflTransGen.symmetric
      (fun x y hxy => ⟨hxy.2.1, hxy.1, adj4_symm x y hxy.2.2⟩)
  intro p hp q hq
  fin_cases hp <;> fin_cases hq <;>
    exact Relation.ReflTransGen.trans
      (hsy (by first | exact hA | exact hB))
      (by first | exact hA | exact hB)

/-! ### Op-code preference order and state update (C8) -/

theorem encodeInto_not_index_run (px prev : Pix) (nchan : Nat) :
    (∀ i, encodeInto px prev nchan ≠ Op.index i) ∧
    (∀ n, encodeInto px prev nchan ≠ Op.run n) := by
  simp only [encodeInto]
  split_ifs <;> exact ⟨fun i h => Op.noConfusion h, fun n h => Op.noConfusion h⟩

/-- C8: the per-pixel decision of `encode_impl` follows the fixed preference
order and state discipline.  A pixel equal to the previous one takes the RUN
path: it leaves the index cache and previous pixel untouched and emits at
most a single RUN record.  A differing pixel whose hash slot holds an
identical pixel emits INDEX (after any pending run flush); otherwise the
difference/literal encoding is emitted (never an INDEX or RUN record).  In
both non-run cases the pixel's hash slot ends up holding the pixel and it
becomes the new previous pixel. -/
theorem encStep_preference (nchan : Nat) (st : EncSt) (px : Pix)
    (isLast : Bool) :
    (px = st.pxPrev →
      (encStep nchan st px isLast).2.index = st.index ∧
      (encStep nchan st px isLast).2.pxPrev = st.pxPrev ∧
      ((encStep nchan st px isLast).1 = [] ∨
        (encStep nchan st px isLast).1 = [Op.run (st.run + 1)])) ∧
    (px ≠ st.pxPrev → st.index (hashIndex px) = px →
      (∃ front, (encStep nchan st px isLast).1 =
        front ++ [Op.index (hashIndex px)]) ∧
      (encStep nchan st px isLast).2.pxPrev = px ∧
      (encStep nchan st px isLast).2.index (hashIndex px) = px ∧
      (encStep nchan st px isLast).2.index = st.index) ∧
    (px ≠ st.pxPrev → st.index (hashIndex px) ≠ px →
      (∃ front, (encStep nchan st px isLast).1 =
        front ++ [encodeInto px st.pxPrev nchan]) ∧
      (∀ i, encodeInto px st.pxPrev nchan ≠ Op.index i) ∧
      (∀ n, encodeInto px st.pxPrev nchan ≠ Op.run n) ∧
      (encStep nchan st px isLast).2.pxPrev = px ∧
      (encStep nchan st px isLast).2.index (hashIndex px) = px) := by
  refine ⟨?_, ?_, ?_⟩
  · intro heq
    simp only [encStep, if_pos heq]
    split_ifs <;> simp
  · intro hne hhit
    simp only [encStep, if_neg hne, if_pos hhit]
    refine ⟨⟨_, rfl⟩, ?_, ?_, ?_⟩ <;> simp [hhit]
  · intro hne hmiss
    simp only [encStep, if_neg hne, if_neg hmiss]
    refine ⟨⟨_, rfl⟩, (encodeInto_not_index_run px st.pxPrev nchan).1,
      (encodeInto_not_index_run px st.pxPrev nchan).2, ?_, ?_⟩ <;>
      simp

/-- Witness for C8: a literal pixel from the initial state (differs from the
previous pixel, missing from the cache). -/
theorem encStep_preference_witness :
    (∃ front, (encStep 3 encInit ⟨1, 2, 3, 255⟩ false).1 =
      front ++ [encodeInto ⟨1, 2, 3, 255⟩ encInit.pxPrev 3]) ∧
    (∀ i, encodeInto ⟨1, 2, 3, 255⟩ encInit.pxPrev 3 ≠ Op.index i) ∧
    (∀ n, encodeInto ⟨1, 2, 3, 255⟩ encInit.pxPrev 3 ≠ Op.run n) ∧
    (encStep 3 encInit ⟨1, 2, 3, 255⟩ false).2.pxPrev = ⟨1, 2, 3, 255⟩ ∧
    (encStep 3 encInit ⟨1, 2, 3, 255⟩ false).2.index
      (hashIndex ⟨1, 2, 3, 255⟩) = ⟨1, 2, 3, 255⟩ :=
  (encStep_preference 3 encInit ⟨1, 2, 3, 255⟩ false).2.2
    (by decide) (by decide)

/-! ### Run flushing at the maximum length and at end of stream (C7) -/

theorem encLoop_cons_ne (nchan : Nat) (st : EncSt) (x : Pix) (rest : List Pix)
    (h : rest ≠ []) :
    encLoop nchan st (x :: rest) =
      (encStep nchan st x false).1 ++
        encLoop nchan (encStep nchan st x false).2 rest := by
  have hemp : rest.isEmpty = false := by
    cases rest
    · exact absurd rfl h
    · rfl
  simp only [encLoop, hemp]

theorem encLoop_single (nchan : Nat) (st : EncSt) (x : Pix) :
    encLoop nchan st [x] = (encStep nchan st x true).1 := by
  simp [encLoop]

theorem encStep_pxPrev (nchan : Nat) (st : EncSt) (px : Pix) (isLast : Bool) :
    (encStep nchan st px isLast).2.pxPrev = px := by
  simp only [encStep]
  split_ifs with h1 h2 <;> simp [h1]

theorem encStep_run_lt (nchan : Nat) (st : EncSt) (px : Pix) (isLast : Bool)
    (h : st.run < 62) : (encStep nchan st px isLast).2.run < 62 := by
  simp only [encStep]
  split_ifs with h1 h2 <;> simp <;> omega

theorem opPixels_encodeInto (px prev : Pix) (nchan : Nat) :
    opPixels (encodeInto px prev nchan) = 1 := by
  simp only [encodeInto]
  split_ifs <;> rfl

theorem opsPixelCount_append (a b : List Op) :
    opsPixelCount (a ++ b) = opsPixelCount a + opsPixelCount b := by
  simp [opsPixelCount]

theorem opPixels_run (n : Nat) : opPixels (Op.run n) = n := rfl

theorem opPixels_index (i : Nat) : opPixels (Op.index i) = 1 := rfl

theorem encStep_count (nchan : Nat) (st : EncSt) (px : Pix) (isLast : Bool) :
    opsPixelCount (encStep nchan st px isLast).1 +
      (encStep nchan st px isLast).2.run = st.run + 1 := by
  simp only [encStep]
  split_ifs <;>
    first
      | (simp_all [opsPixelCount, opPixels_run, opPixels_index,
          opPixels_encodeInto]; omega)
      | simp_all [opsPixelCount, opPixels_run, opPixels_index,
          opPixels_encodeInto]
      | omega

theorem encLoop_pixel_count (nchan : Nat) :
    ∀ (L : List Pix) (st : EncSt), L ≠ [] →
      opsPixelCount (encLoop nchan st L) = st.run + L.length := by
  intro L
  induction L with
  | nil => intro st h; exact absurd rfl h
  | cons x L ih =>
    intro st _
    cases hL : L with
    | nil =>
      rw [encLoop_single]
      have h := encStep_count nchan st x true
      have hrun : (encStep nchan st x true).2.run = 0 := by
        simp only [encStep]
        split_ifs with h1 h2 <;> first | rfl | (exact absurd (Or.inr trivial) h2)
      rw [hrun] at h
      simpa using h
    | cons y L' =>
      rw [← hL]
      have hne : L ≠ [] := by rw [hL]; exact fun h => List.noConfusion h
      rw [encLoop_cons_ne nchan st x L hne, opsPixelCount_append,
        ih _ hne, ← Nat.add_assoc, encStep_count]
      simp [List.length_cons]
      omega

theorem encLoop_run_pattern (nchan : Nat) (v : Pix) :
    ∀ m r (st : EncSt), st.pxPrev = v → st.run = r → r < 62 → 1 ≤ m →
      encLoop nchan st (List.replicate m v) =
        List.replicate ((m + r - 1) / 62) (Op.run 62) ++
          [Op.run (m + r - 62 * ((m + r - 1) / 62))] := by
  intro m
  induction m with
  | zero => intro r st _ _ _ h; omega
  | succ m ih =>
    intro r st hpx hrun hr _
    rw [List.replicate_succ]
    cases Nat.eq_zero_or_pos m with
    | inl hm =>
      subst hm
      rw [show (List.replicate 0 v : List Pix) = [] from rfl, encLoop_single]
      simp only [encStep, if_pos hpx.symm, hrun]
      rw [if_pos (Or.inr trivial)]
      have hd : (0 + 1 + r - 1) / 62 = 0 := Nat.div_eq_of_lt (by omega)
      rw [hd]
      have hv : 0 + 1 + r - 62 * 0 = r + 1 := by omega
      rw [hv]
      rfl
    | inr hm =>
      have hne : List.replicate m v ≠ [] :=
        List.ne_nil_of_length_pos (by simpa using hm)
      rw [encLoop_cons_ne nchan st v _ hne]
      simp only [encStep, if_pos hpx.symm, hrun]
      by_cases hfull : r + 1 = 62
      · rw [if_pos (Or.inl hfull)]
        have hrec := ih 0 { st with run := 0 } hpx rfl (by omega) hm
        simp only at hrec
        rw [hrec]
        have he1 : (m + 1 + r - 1) / 62 = (m + 0 - 1) / 62 + 1 := by
          have h2 : m + 1 + r - 1 = (m + 0 - 1) + 62 := by omega
          rw [h2, Nat.add_div_right _ (by omega)]
        have he2 : m + 1 + r - 62 * ((m + 1 + r - 1) / 62) =
            m + 0 - 62 * ((m + 0 - 1) / 62) := by
          rw [he1]
          have h3 := Nat.div_mul_le_self (m + 0 - 1) 62
          omega
        rw [he2, he1, List.replicate_succ]
        simp [hfull]
      · rw [if_neg (by simp [hfull])]
        have hrec := ih (r + 1) { st with run := r + 1 } hpx rfl (by omega) hm
        simp only at hrec
        rw [hrec]
        have he1 : m + (r + 1) = m + 1 + r := by omega
        rw [he1]
        rfl

theorem encStep_run_zero_or (nchan : Nat) (st : EncSt) (px : Pix)
    (h : px ≠ st.pxPrev) :
    (encStep nchan st px false).2.run = 0 := by
  simp only [encStep, if_neg h]
  split_ifs <;> rfl

theorem encLoop_enter_run (nchan : Nat) (v : Pix) (k : Nat) (st : EncSt)
    (hne : v ≠ st.pxPrev) (hk : 2 ≤ k) :
    ∃ front, encLoop nchan st (List.replicate k v) =
      front ++ (List.replicate ((k - 2) / 62) (Op.run 62) ++
        [Op.run (k - 1 - 62 * ((k - 2) / 62))]) := by
  obtain ⟨m, rfl⟩ : ∃ m, k = m + 2 := ⟨k - 2, by omega⟩
  rw [show m + 2 = (m + 1) + 1 by omega, List.replicate_succ]
  have hrep : List.replicate (m + 1) v ≠ [] :=
    List.ne_nil_of_length_pos (by simp)
  rw [encLoop_cons_ne nchan st v _ hrep]
  refine ⟨(encStep nchan st v false).1, ?_⟩
  have h1 := encLoop_run_pattern nchan v (m + 1) 0 (encStep nchan st v false).2
    (encStep_pxPrev nchan st v false) (encStep_run_zero_or nchan st v hne)
    (by omega) (by omega)
  have e1 : m + 1 + 0 - 1 = m := by omega
  have e3 : m + 1 + 0 = m + 1 := by omega
  rw [e1, e3] at h1
  have e2 : m + 1 + 1 - 2 = m := by omega
  have e4 : m + 1 + 1 - 1 = m + 1 := by omega
  rw [e2, e4, h1]

theorem encLoop_trailing_run (nchan : Nat) (v : Pix) (k : Nat) (hk : 2 ≤ k) :
    ∀ (p : List Pix) (st : EncSt), p ≠ [] → p.getLast? ≠ some v →
      st.run < 62 →
      ∃ front, encLoop nchan st (p ++ List.replicate k v) =
        front ++ (List.replicate ((k - 2) / 62) (Op.run 62) ++
          [Op.run (k - 1 - 62 * ((k - 2) / 62))]) := by
  intro p
  induction p with
  | nil => intro st h _ _; exact absurd rfl h
  | cons x p ih =>
    intro st _ hlast hrun
    cases p with
    | nil =>
      have hxv : x ≠ v := by
        intro h
        apply hlast
        rw [h]
        rfl
      rw [List.cons_append, List.nil_append]
      have hrep : List.replicate k v ≠ [] :=
        List.ne_nil_of_length_pos (by simp; omega)
      rw [encLoop_cons_ne nchan st x _ hrep]
      obtain ⟨front, hfront⟩ := encLoop_enter_run nchan v k
        (encStep nchan st x false).2
        (by rw [encStep_pxPrev]; exact fun h => hxv h.symm) hk
      refine ⟨(encStep nchan st x false).1 ++ front, ?_⟩
      rw [hfront, List.append_assoc]
    | cons y p' =>
      have hlast' : (y :: p').getLast? ≠ some v := by
        rwa [List.getLast?_cons_cons] at hlast
      rw [List.cons_append]
      have hne2 : (y :: p') ++ List.replicate k v ≠ [] := by simp
      rw [encLoop_cons_ne nchan st x _ hne2]
      have hrun' : (encStep nchan st x false).2.run < 62 :=
        encStep_run_lt nchan st x false hrun
      obtain ⟨front, hfront⟩ := ih _ (by simp) hlast' hrun'
      refine ⟨(encStep nchan st x false).1 ++ front, ?_⟩
      rw [hfront, List.append_assoc]

/-- C7: a valid input ending in a run of more than 62 identical pixels (a
trailing block of `k ≥ 64` copies of `v`, the preceding pixel differing)
flushes at least two RUN records: the op stream ends with `(k-2)/62 + 1 ≥ 2`
RUN records — all inner ones of exactly the maximum length 62, flushed
exactly when the counter reaches 62, and a final one of the remainder,
flushed at end of stream — whose lengths sum to the whole trailing run
`k - 1`, and the op stream accounts for every input pixel (none dropped). -/
theorem run_boundary_flush (nchan : Nat) (p : List Pix) (v : Pix) (k : Nat)
    (hp : p ≠ []) (hlast : p.getLast? ≠ some v) (hk : 64 ≤ k) :
    ∃ front q rem,
      encLoop nchan encInit (p ++ List.replicate k v) =
        front ++ (List.replicate q (Op.run 62) ++ [Op.run rem]) ∧
      q = (k - 2) / 62 ∧ rem = k - 1 - 62 * ((k - 2) / 62) ∧
      1 ≤ q ∧ 1 ≤ rem ∧ rem ≤ 62 ∧ 62 * q + rem = k - 1 ∧
      opsPixelCount (encLoop nchan encInit (p ++ List.replicate k v)) =
        p.length + k := by
  obtain ⟨front, hfront⟩ := encLoop_trailing_run nchan v k (by omega) p encInit
    hp hlast (by simp [encInit])
  refine ⟨front, (k - 2) / 62, k - 1 - 62 * ((k - 2) / 62), hfront,
    rfl, rfl, ?_, ?_, ?_, ?_, ?_⟩
  · have h62 : (62 : Nat) ≤ k - 2 := by omega
    have := (Nat.le_div_iff_mul_le (by omega : 0 < 62)).mpr
      (by omega : 1 * 62 ≤ k - 2)
    omega
  · have h1 := Nat.div_add_mod (k - 2) 62
    have h2 : (k - 2) % 62 < 62 := Nat.mod_lt _ (by omega)
    omega
  · have h1 := Nat.div_add_mod (k - 2) 62
    have h2 : (k - 2) % 62 < 62 := Nat.mod_lt _ (by omega)
    omega
  · have h1 := Nat.div_add_mod (k - 2) 62
    have h2 : (k - 2) % 62 < 62 := Nat.mod_lt _ (by omega)
    omega
  · have hne : p ++ List.replicate k v ≠ [] := by
      cases p
      · exact absurd rfl hp
      · simp
    rw [encLoop_pixel_count nchan _ encInit hne]
    simp [encInit]

/-- Witness for C7: a single literal pixel followed by 64 background pixels
(trailing run of length 63 > 62). -/
theorem run_boundary_flush_witness :
    ∃ front q rem,
      encLoop 3 encInit ([(⟨1, 2, 3, 255⟩ : Pix)] ++
        List.replicate 64 (⟨0, 0, 0, 255⟩ : Pix)) =
        front ++ (List.replicate q (Op.run 62) ++ [Op.run rem]) ∧
      q = (64 - 2) / 62 ∧ rem = 64 - 1 - 62 * ((64 - 2) / 62) ∧
      1 ≤ q ∧ 1 ≤ rem ∧ rem ≤ 62 ∧ 62 * q + rem = 64 - 1 ∧
      opsPixelCount (encLoop 3 encInit ([(⟨1, 2, 3, 255⟩ : Pix)] ++
        List.replicate 64 (⟨0, 0, 0, 255⟩ : Pix))) =
        [(⟨1, 2, 3, 255⟩ : Pix)].length + 64 :=
  run_boundary_flush 3 [⟨1, 2, 3, 255⟩] ⟨0, 0, 0, 255⟩ 64
    (by decide) (by decide) (by decide)

/-! ### Decoding single serialized ops (towards C1) -/

theorem hashIndex_lt (p : Pix) : hashIndex p < 64 :=
  Nat.mod_lt _ (by omega)

theorem decStep_run (st : DecSt) (n : Nat) (rest : List Nat)
    (h1 : 1 ≤ n) (h2 : n ≤ 62) :
    decStepOp st (serOp (Op.run n) ++ rest) =
      some (List.replicate n st.pxPrev, st, rest) := by
  show decStepOp st ((0xC0 + (n - 1)) :: rest) = _
  simp only [decStepOp]
  rw [if_neg (by omega), if_neg (by omega), if_neg (by omega),
    if_neg (by omega), if_neg (by omega)]
  have : 0xC0 + (n - 1) - 192 + 1 = n := by omega
  rw [this]

theorem decStep_index (st : DecSt) (i : Nat) (rest : List Nat) (hi : i < 64) :
    decStepOp st (serOp (Op.index i) ++ rest) =
      some ([st.index i], ⟨st.index, st.index i⟩, rest) := by
  show decStepOp st (i :: rest) = _
  simp only [decStepOp]
  rw [if_neg (by omega), if_neg (by omega), if_pos hi]

theorem decStep_diff (st : DecSt) (dr dg db : Nat) (rest : List Nat)
    (h1 : dr < 4) (h2 : dg < 4) (h3 : db < 4) :
    decStepOp st (serOp (Op.diff dr dg db) ++ rest) =
      some ([⟨(st.pxPrev.r + dr + 254) % 256, (st.pxPrev.g + dg + 254) % 256,
              (st.pxPrev.b + db + 254) % 256, st.pxPrev.a⟩],
        ⟨Function.update st.index
            (hashIndex ⟨(st.pxPrev.r + dr + 254) % 256,
              (st.pxPrev.g + dg + 254) % 256,
              (st.pxPrev.b + db + 254) % 256, st.pxPrev.a⟩)
            ⟨(st.pxPrev.r + dr + 254) % 256, (st.pxPrev.g + dg + 254) % 256,
              (st.pxPrev.b + db + 254) % 256, st.pxPrev.a⟩,
          ⟨(st.pxPrev.r + dr + 254) % 256, (st.pxPrev.g + dg + 254) % 256,
            (st.pxPrev.b + db + 254) % 256, st.pxPrev.a⟩⟩, rest) := by
  show decStepOp st ((0x40 + dr * 16 + dg * 4 + db) :: rest) = _
  simp only [decStepOp]
  rw [if_neg (by omega), if_neg (by omega), if_neg (by omega),
    if_pos (by omega)]
  have e1 : (0x40 + dr * 16 + dg * 4 + db) / 16 % 4 = dr := by omega
  have e2 : (0x40 + dr * 16 + dg * 4 + db) / 4 % 4 = dg := by omega
  have e3 : (0x40 + dr * 16 + dg * 4 + db) % 4 = db := by omega
  rw [e1, e2, e3]

theorem decStep_luma (st : DecSt) (dg drg dbg : Nat) (rest : List Nat)
    (h1 : dg < 64) (h2 : drg < 16) (h3 : dbg < 16) :
    decStepOp st (serOp (Op.luma dg drg dbg) ++ rest) =
      some ([⟨(st.pxPrev.r + dg + drg + 472) % 256,
              (st.pxPrev.g + dg + 224) % 256,
              (st.pxPrev.b + dg + dbg + 472) % 256, st.pxPrev.a⟩],
        ⟨Function.update st.index
            (hashIndex ⟨(st.pxPrev.r + dg + drg + 472) % 256,
              (st.pxPrev.g + dg + 224) % 256,
              (st.pxPrev.b + dg + dbg + 472) % 256, st.pxPrev.a⟩)
            ⟨(st.pxPrev.r + dg + drg + 472) % 256,
              (st.pxPrev.g + dg + 224) % 256,
              (st.pxPrev.b + dg + dbg + 472) % 256, st.pxPrev.a⟩,
          ⟨(st.pxPrev.r + dg + drg + 472) % 256,
            (st.pxPrev.g + dg + 224) % 256,
            (st.pxPrev.b + dg + dbg + 472) % 256, st.pxPrev.a⟩⟩, rest) := by
  show decStepOp st ((0x80 + dg) :: (drg * 16 + dbg) :: rest) = _
  simp only [decStepOp]
  rw [if_neg (by omega), if_neg (by omega), if_neg (by omega),
    if_neg (by omega), if_pos (by omega)]
  have e1 : (0x80 + dg) % 64 = dg := by omega
  have e2 : (drg * 16 + dbg) / 16 = drg := by omega
  have e3 : (drg * 16 + dbg) % 16 = dbg := by omega
  rw [e1, e2, e3]

theorem decStep_rgb (st : DecSt) (r g b : Nat) (rest : List Nat) :
    decStepOp st (serOp (Op.rgb r g b) ++ rest) =
      some ([⟨r, g, b, st.pxPrev.a⟩],
        ⟨Function.update st.index (hashIndex ⟨r, g, b, st.pxPrev.a⟩)
            ⟨r, g, b, st.pxPrev.a⟩, ⟨r, g, b, st.pxPrev.a⟩⟩, rest) := by
  show decStepOp st (0xFE :: r :: g :: b :: rest) = _
  simp only [decStepOp]
  rw [if_pos trivial]

theorem decStep_rgba (st : DecSt) (r g b a : Nat) (rest : List Nat) :
    decStepOp st (serOp (Op.rgba r g b a) ++ rest) =
      some ([⟨r, g, b, a⟩],
        ⟨Function.update st.index (hashIndex ⟨r, g, b, a⟩) ⟨r, g, b, a⟩,
          ⟨r, g, b, a⟩⟩, rest) := by
  show decStepOp st (0xFF :: r :: g :: b :: a :: rest) = _
  simp only [decStepOp]
  norm_num

theorem dec_result_congr (idx : Nat → Pix) (X px : Pix) (rest : List Nat)
    (h : X = px) :
    (some ([X], (⟨Function.update idx (hashIndex X) X, X⟩ : DecSt), rest) :
        Option (List Pix × DecSt × List Nat)) =
      some ([px], ⟨Function.update idx (hashIndex px) px, px⟩, rest) := by
  rw [h]

theorem decStep_encodeInto (st : DecSt) (px : Pix) (nchan : Nat)
    (rest : List Nat) (hpx : pixOK px) (hprev : pixOK st.pxPrev)
    (halpha : nchan ≠ 4 → px.a = st.pxPrev.a) :
    decStepOp st (serOp (encodeInto px st.pxPrev nchan) ++ rest) =
      some ([px], ⟨Function.update st.index (hashIndex px) px, px⟩, rest) := by
  obtain ⟨pr, pg, pb, pa⟩ := px
  obtain ⟨hr, hg, hb, ha⟩ := hpx
  obtain ⟨hr2, hg2, hb2, ha2⟩ := hprev
  simp only at hr hg hb ha halpha
  simp only [encodeInto, wrapSub]
  split_ifs with h1 h2 h3
  · rw [decStep_rgba]
  · have hae : pa = st.pxPrev.a := by
      by_cases hn : nchan = 4
      · rcases not_and_or.mp h1 with h | h
        · exact absurd hn h
        · simpa using not_not.mp h
      · exact halpha hn
    obtain ⟨hd1, hd2, hd3⟩ := h2
    rw [decStep_diff st _ _ _ rest hd1 hd2 hd3]
    apply dec_result_congr
    simp only [Pix.mk.injEq]
    refine ⟨?_, ?_, ?_, ?_⟩ <;> omega
  · have hae : pa = st.pxPrev.a := by
      by_cases hn : nchan = 4
      · rcases not_and_or.mp h1 with h | h
        · exact absurd hn h
        · simpa using not_not.mp h
      · exact halpha hn
    obtain ⟨hl1, hl2, hl3⟩ := h3
    rw [decStep_luma st _ _ _ rest hl1 hl2 hl3]
    apply dec_result_congr
    simp only [Pix.mk.injEq]
    refine ⟨?_, ?_, ?_, ?_⟩ <;> omega
  · have hae : pa = st.pxPrev.a := by
      by_cases hn : nchan = 4
      · rcases not_and_or.mp h1 with h | h
        · exact absurd hn h
        · simpa using not_not.mp h
      · exact halpha hn
    rw [decStep_rgb st _ _ _ rest]
    apply dec_result_congr
    simp only [Pix.mk.injEq]
    exact ⟨trivial, trivial, trivial, hae.symm⟩

/-! ### The decoder replays the encoder's op stream (C1) -/

theorem decLoopGo_zero (fuel : Nat) (st : DecSt) (bytes : List Nat) :
    decLoopGo fuel st bytes 0 = some ([], bytes) := by
  cases fuel <;> rfl

theorem decLoopGo_succ (fuel : Nat) (st : DecSt) (bytes : List Nat) (n : Nat)
    (hn : n ≠ 0) :
    decLoopGo (fuel + 1) st bytes n =
      match decStepOp st bytes with
      | none => none
      | some (pxs, st2, rest) =>
        if pxs.length = 0 ∨ pxs.length > n then none
        else
          match decLoopGo fuel st2 rest (n - pxs.length) with
          | none => none
          | some (tl, rem) => some (pxs ++ tl, rem) := by
  obtain ⟨m, rfl⟩ : ∃ m, n = m + 1 := ⟨n - 1, by omega⟩
  rfl

theorem roundtrip_loop (nchan : Nat) :
    ∀ (L : List Pix) (e : EncSt) (d : DecSt) (tail : List Nat) (fuel : Nat),
      encStOK nchan e → d.index = e.index → d.pxPrev = e.pxPrev →
      pixListOK nchan L →
      (e.run ≠ 0 → L ≠ []) →
      e.run + L.length ≤ fuel →
      decLoopGo fuel d ((encLoop nchan e L).flatMap serOp ++ tail)
          (e.run + L.length) =
        some (List.replicate e.run e.pxPrev ++ L, tail) := by
  intro L
  induction L with
  | nil =>
    intro e d tail fuel hst hdi hdp hLok hrunL hfuel
    have hr0 : e.run = 0 := by
      by_contra h
      exact hrunL h rfl
    rw [hr0]
    simp only [encLoop, List.flatMap_nil, List.nil_append, List.length_nil,
      Nat.add_zero]
    rw [decLoopGo_zero]
    simp [hr0]
  | cons px L ih =>
    intro e d tail fuel hst hdi hdp hLok hrunL hfuel
    obtain ⟨hrun61, hprevOK, hidx, halpha⟩ := hst
    have hpxOK := hLok px (List.mem_cons_self px L)
    have hLok' : pixListOK nchan L := fun q hq =>
      hLok q (List.mem_cons_of_mem px hq)
    have hcount : e.run + (px :: L).length = e.run + L.length + 1 := by
      simp [List.length_cons]
      omega
    rw [hcount] at hfuel
    by_cases hpe : px = e.pxPrev
    · -- RUN branch
      by_cases hL : L = []
      · -- last pixel: flush at end of stream
        subst hL
        rw [encLoop_single]
        simp only [encStep, if_pos hpe]
        rw [if_pos (Or.inr trivial)]
        obtain ⟨f, rfl⟩ : ∃ f, fuel = f + 1 := ⟨fuel - 1, by omega⟩
        rw [hcount, decLoopGo_succ _ _ _ _ (by omega)]
        simp only [List.flatMap_cons, List.flatMap_nil, List.append_nil]
        rw [decStep_run d (e.run + 1) tail (by omega) (by omega)]
        simp only [List.length_replicate]
        rw [if_neg (by simp only [List.length_nil]; omega)]
        have hz : e.run + List.length ([] : List Pix) + 1 - (e.run + 1) = 0 := by
          simp only [List.length_nil]
          omega
        rw [hz, decLoopGo_zero]
        rw [List.replicate_succ', hdp, hpe]
        simp
      · -- not last: unfold one loop step
        rw [encLoop_cons_ne nchan e px L hL]
        simp only [encStep, if_pos hpe]
        by_cases h62 : e.run + 1 = 62
        · -- flush at the 62 ceiling
          rw [if_pos (Or.inl h62)]
          obtain ⟨f, rfl⟩ : ∃ f, fuel = f + 1 := ⟨fuel - 1, by omega⟩
          rw [hcount, decLoopGo_succ _ _ _ _ (by omega)]
          simp only [List.flatMap_append, List.flatMap_cons, List.flatMap_nil,
            List.append_nil, List.append_assoc]
          rw [decStep_run d (e.run + 1) _ (by omega) (by omega)]
          simp only [List.length_replicate]
          rw [if_neg (by omega)]
          have hrec : decLoopGo f d
              ((encLoop nchan
                  { e with run := 0 } L).flatMap serOp ++ tail)
              (0 + L.length) =
              some (List.replicate 0 e.pxPrev ++ L, tail) :=
            ih { e with run := 0 } d tail f
              ⟨by show (0:Nat) ≤ 61; omega, hprevOK, hidx, halpha⟩ hdi hdp
              hLok' (fun h => absurd rfl h)
              (by show 0 + L.length ≤ f; omega)
          have hz : e.run + L.length + 1 - (e.run + 1) = 0 + L.length := by
            omega
          rw [hz, hrec]
          rw [List.replicate_succ', hdp, hpe]
          simp [List.append_assoc]
        · -- keep counting
          rw [if_neg (by simp [h62])]
          simp only [List.flatMap_nil, List.nil_append]
          have hrec : decLoopGo fuel d
              ((encLoop nchan
                  { e with run := e.run + 1 } L).flatMap serOp ++ tail)
              (e.run + 1 + L.length) =
              some (List.replicate (e.run + 1) e.pxPrev ++ L, tail) :=
            ih { e with run := e.run + 1 } d tail fuel
              ⟨by show e.run + 1 ≤ 61; omega, hprevOK, hidx, halpha⟩ hdi hdp
              hLok' (fun _ => hL)
              (by show e.run + 1 + L.length ≤ fuel; omega)
          rw [hcount, show e.run + L.length + 1 = e.run + 1 + L.length by omega,
            hrec]
          rw [List.replicate_succ', hpe]
          simp [List.append_assoc]
    · -- literal / index branch
      simp only [encLoop, encStep, if_neg hpe, List.flatMap_append,
        List.flatMap_cons, List.flatMap_nil, List.append_nil,
        List.append_assoc]
      by_cases hhit : e.index (hashIndex px) = px
      · -- INDEX back-reference for the new pixel
        simp only [if_pos hhit, List.flatMap_cons, List.flatMap_nil,
          List.append_nil, List.append_assoc]
        have hAfter : ∀ (d2 : DecSt), d2.index = e.index →
            d2.pxPrev = e.pxPrev → ∀ f2, 1 + L.length ≤ f2 →
            decLoopGo f2 d2 (serOp (Op.index (hashIndex px)) ++
                ((encLoop nchan
                    ⟨e.index, px, hashIndex px, 0, true⟩ L).flatMap serOp ++
                  tail))
              (1 + L.length) = some (px :: L, tail) := by
          intro d2 hd2i hd2p f2 hf2
          obtain ⟨f3, rfl⟩ : ∃ f3, f2 = f3 + 1 := ⟨f2 - 1, by omega⟩
          rw [decLoopGo_succ _ _ _ _ (by omega)]
          rw [decStep_index d2 (hashIndex px) _ (hashIndex_lt px)]
          simp only [List.length_singleton]
          rw [if_neg (by omega)]
          rw [hd2i, hhit]
          have hrec : decLoopGo f3 (⟨e.index, px⟩ : DecSt)
              ((encLoop nchan
                  ⟨e.index, px, hashIndex px, 0, true⟩ L).flatMap serOp ++
                tail)
              (0 + L.length) =
              some (List.replicate 0 px ++ L, tail) :=
            ih ⟨e.index, px, hashIndex px, 0, true⟩ ⟨e.index, px⟩ tail f3
              ⟨by show (0:Nat) ≤ 61; omega, hpxOK.1,
                fun _ => ⟨rfl, hhit⟩, fun h => hpxOK.2 h⟩
              rfl rfl hLok' (fun h => absurd rfl h)
              (by show 0 + L.length ≤ f3; omega)
          rw [show 1 + L.length - 1 = 0 + L.length by omega, hrec]
          simp
        by_cases hr0 : e.run = 0
        · -- no pending run to flush
          rw [if_neg (fun h => h hr0)]
          simp only [List.flatMap_append, List.flatMap_cons, List.flatMap_nil,
            List.append_nil, List.nil_append, List.append_assoc]
          rw [hcount, show e.run + L.length + 1 = 1 + L.length by omega,
            hr0]
          simp only [List.replicate_zero, List.nil_append]
          exact hAfter d hdi hdp fuel (by omega)
        · -- flush the pending run first
          rw [if_pos hr0]
          obtain ⟨f, rfl⟩ : ∃ f, fuel = f + 1 := ⟨fuel - 1, by omega⟩
          rw [hcount, decLoopGo_succ _ _ _ _ (by omega)]
          by_cases hsub : e.run = 1 ∧ e.indexAllowed = true
          · -- run of one replaced by an INDEX back-reference
            rw [if_pos hsub]
            simp only [List.flatMap_append, List.flatMap_cons, List.flatMap_nil,
              List.append_nil, List.nil_append, List.append_assoc]
            obtain ⟨hh1, hh2⟩ := hidx hsub.2
            rw [decStep_index d e.hashPrev _
              (by rw [hh1]; exact hashIndex_lt e.pxPrev)]
            simp only [List.length_singleton]
            rw [if_neg (by omega)]
            rw [show e.run + L.length + 1 - 1 = 1 + L.length by omega]
            rw [hAfter ⟨d.index, d.index e.hashPrev⟩ hdi
              (by show d.index e.hashPrev = e.pxPrev; rw [hdi, hh2]) f
              (by omega)]
            rw [hdi, hh2, hsub.1]
            simp [List.replicate_succ]
          · -- ordinary RUN flush
            rw [if_neg hsub]
            simp only [List.flatMap_append, List.flatMap_cons, List.flatMap_nil,
              List.append_nil, List.nil_append, List.append_assoc]
            rw [decStep_run d e.run _ (by omega) (by omega)]
            simp only [List.length_replicate]
            rw [if_neg (by omega)]
            rw [show e.run + L.length + 1 - e.run = 1 + L.length by omega]
            rw [hAfter d hdi hdp f (by omega)]
            rw [hdp]
      · -- literal chunk for the new pixel
        simp only [if_neg hhit, List.flatMap_cons, List.flatMap_nil,
          List.append_nil, List.append_assoc]
        have hAfter : ∀ (d2 : DecSt), d2.index = e.index →
            d2.pxPrev = e.pxPrev → ∀ f2, 1 + L.length ≤ f2 →
            decLoopGo f2 d2 (serOp (encodeInto px e.pxPrev nchan) ++
                ((encLoop nchan
                    ⟨Function.update e.index (hashIndex px) px, px,
                      hashIndex px, 0, true⟩ L).flatMap serOp ++
                  tail))
              (1 + L.length) = some (px :: L, tail) := by
          intro d2 hd2i hd2p f2 hf2
          obtain ⟨f3, rfl⟩ : ∃ f3, f2 = f3 + 1 := ⟨f2 - 1, by omega⟩
          rw [decLoopGo_succ _ _ _ _ (by omega)]
          rw [← hd2p]
          have halpha2 : nchan ≠ 4 → px.a = d2.pxPrev.a := by
            intro h
            rw [hd2p, halpha h, hpxOK.2 h]
          rw [decStep_encodeInto d2 px nchan _ hpxOK.1
            (by rw [hd2p]; exact hprevOK) halpha2]
          simp only [List.length_singleton]
          rw [if_neg (by omega)]
          rw [hd2i]
          have hrec : decLoopGo f3
              (⟨Function.update e.index (hashIndex px) px, px⟩ : DecSt)
              ((encLoop nchan
                  ⟨Function.update e.index (hashIndex px) px, px,
                    hashIndex px, 0, true⟩ L).flatMap serOp ++
                tail)
              (0 + L.length) =
              some (List.replicate 0 px ++ L, tail) :=
            ih ⟨Function.update e.index (hashIndex px) px, px,
                hashIndex px, 0, true⟩
              ⟨Function.update e.index (hashIndex px) px, px⟩ tail f3
              ⟨by show (0:Nat) ≤ 61; omega, hpxOK.1,
                fun _ => ⟨rfl, Function.update_same _ _ _⟩,
                fun h => hpxOK.2 h⟩
              rfl rfl hLok' (fun h => absurd rfl h)
              (by show 0 + L.length ≤ f3; omega)
          rw [show 1 + L.length - 1 = 0 + L.length by omega, hrec]
          simp
        by_cases hr0 : e.run = 0
        · -- no pending run to flush
          rw [if_neg (fun h => h hr0)]
          simp only [List.flatMap_append, List.flatMap_cons, List.flatMap_nil,
            List.append_nil, List.nil_append, List.append_assoc]
          rw [hcount, show e.run + L.length + 1 = 1 + L.length by omega,
            hr0]
          simp only [List.replicate_zero, List.nil_append]
          exact hAfter d hdi hdp fuel (by omega)
        · -- flush the pending run first
          rw [if_pos hr0]
          obtain ⟨f, rfl⟩ : ∃ f, fuel = f + 1 := ⟨fuel - 1, by omega⟩
          rw [hcount, decLoopGo_succ _ _ _ _ (by omega)]
          by_cases hsub : e.run = 1 ∧ e.indexAllowed = true
          · -- run of one replaced by an INDEX back-reference
            rw [if_pos hsub]
            simp only [List.flatMap_append, List.flatMap_cons, List.flatMap_nil,
              List.append_nil, List.nil_append, List.append_assoc]
            obtain ⟨hh1, hh2⟩ := hidx hsub.2
            rw [decStep_index d e.hashPrev _
              (by rw [hh1]; exact hashIndex_lt e.pxPrev)]
            simp only [List.length_singleton]
            rw [if_neg (by omega)]
            rw [show e.run + L.length + 1 - 1 = 1 + L.length by omega]
            rw [hAfter ⟨d.index, d.index e.hashPrev⟩ hdi
              (by show d.index e.hashPrev = e.pxPrev; rw [hdi, hh2]) f
              (by omega)]
            rw [hdi, hh2, hsub.1]
            simp [List.replicate_succ]
          · -- ordinary RUN flush
            rw [if_neg hsub]
            simp only [List.flatMap_append, List.flatMap_cons, List.flatMap_nil,
              List.append_nil, List.nil_append, List.append_assoc]
            rw [decStep_run d e.run _ (by omega) (by omega)]
            simp only [List.length_replicate]
            rw [if_neg (by omega)]
            rw [show e.run + L.length + 1 - e.run = 1 + L.length by omega]
            rw [hAfter d hdi hdp f (by omega)]
            rw [hdp]
theorem beRead_be32 (n : Nat) (h : n < 2 ^ 32) : beRead (be32 n) = n := by
  simp only [beRead, be32, List.getD_cons_zero, List.getD_cons_succ]
  omega

theorem encInit_ok (nchan : Nat) : encStOK nchan encInit := by
  refine ⟨Nat.zero_le _, ?_, ?_, fun _ => rfl⟩
  · show pixInit.r < 256 ∧ pixInit.g < 256 ∧ pixInit.b < 256 ∧ pixInit.a < 256
    decide
  · intro hh
    exact Bool.noConfusion hh

theorem list_len4 (l : List Nat) (h : l.length = 4) :
    ∃ a b c d, l = [a, b, c, d] := by
  cases l with
  | nil => simp at h
  | cons a t =>
    obtain ⟨b, c, d, rfl⟩ := List.length_eq_three.mp (by simpa using h)
    exact ⟨a, b, c, d, rfl⟩

theorem chunksGo_spec (nchan : Nat) (hch : nchan = 3 ∨ nchan = 4) :
    ∀ (np f : Nat) (data : List Nat), data.length = np * nchan →
      data.length ≤ f → (∀ b ∈ data, b < 256) →
      (chunksExactGo nchan f data).length = np ∧
      ((chunksExactGo nchan f data).map (toPix nchan)).flatMap
          (pixBytes nchan) = data ∧
      pixListOK nchan ((chunksExactGo nchan f data).map (toPix nchan)) := by
  intro np
  induction np with
  | zero =>
    intro f data hlen hf hb
    have hd : data = [] := List.eq_nil_of_length_eq_zero (by omega)
    subst hd
    have hgo : chunksExactGo nchan f [] = [] := by
      cases f with
      | zero => rfl
      | succ f =>
        show (if nchan = 0 ∨ ([] : List Nat).length < nchan then []
              else _) = []
        rw [if_pos (Or.inr (by simp only [List.length_nil]; omega))]
    rw [hgo]
    exact ⟨rfl, rfl, fun px hpx => absurd hpx (by simp)⟩
  | succ np ih =>
    intro f data hlen hf hb
    have hsm : (np + 1) * nchan = np * nchan + nchan := Nat.succ_mul np nchan
    have hge : nchan ≤ data.length := by omega
    obtain ⟨f', rfl⟩ : ∃ f', f = f' + 1 := ⟨f - 1, by omega⟩
    have hstep : chunksExactGo nchan (f' + 1) data =
        data.take nchan :: chunksExactGo nchan f' (data.drop nchan) := by
      show (if nchan = 0 ∨ data.length < nchan then []
            else data.take nchan :: chunksExactGo nchan f' (data.drop nchan)) =
          _
      rw [if_neg (by omega)]
    have hdl : (data.drop nchan).length = np * nchan := by
      simp only [List.length_drop]
      omega
    obtain ⟨ih1, ih2, ih3⟩ := ih f' (data.drop nchan) hdl
      (by simp only [List.length_drop]; omega)
      (fun b hb2 => hb b (List.mem_of_mem_drop hb2))
    have htl : (data.take nchan).length = nchan := by
      rw [List.length_take]
      omega
    have hbtake : ∀ b ∈ data.take nchan, b < 256 :=
      fun b hb2 => hb b (List.take_subset nchan data hb2)
    have htake : pixBytes nchan (toPix nchan (data.take nchan)) =
        data.take nchan ∧ pixOK (toPix nchan (data.take nchan)) ∧
        (nchan ≠ 4 → (toPix nchan (data.take nchan)).a = 255) := by
      rcases hch with h3 | h4
      · rw [h3] at htl hbtake ⊢
        obtain ⟨a, b, c, heq⟩ := List.length_eq_three.mp htl
        rw [heq] at hbtake ⊢
        have ha := hbtake a (by simp)
        have hbb := hbtake b (by simp)
        have hc := hbtake c (by simp)
        refine ⟨by simp [pixBytes, toPix], ?_, fun _ => rfl⟩
        show (toPix 3 [a, b, c]).r < 256 ∧ (toPix 3 [a, b, c]).g < 256 ∧
          (toPix 3 [a, b, c]).b < 256 ∧ (toPix 3 [a, b, c]).a < 256
        simp only [toPix, List.getD_cons_zero, List.getD_cons_succ]
        exact ⟨ha, hbb, hc, by norm_num⟩
      · rw [h4] at htl hbtake ⊢
        obtain ⟨a, b, c, d, heq⟩ := list_len4 _ htl
        rw [heq] at hbtake ⊢
        have ha := hbtake a (by simp)
        have hbb := hbtake b (by simp)
        have hc := hbtake c (by simp)
        have hd := hbtake d (by simp)
        refine ⟨by simp [pixBytes, toPix], ?_, fun hn => absurd rfl hn⟩
        show (toPix 4 [a, b, c, d]).r < 256 ∧ (toPix 4 [a, b, c, d]).g < 256 ∧
          (toPix 4 [a, b, c, d]).b < 256 ∧ (toPix 4 [a, b, c, d]).a < 256
        simp only [toPix, List.getD_cons_zero, List.getD_cons_succ]
        exact ⟨ha, hbb, hc, by simpa using hd⟩
    rw [hstep]
    refine ⟨by simp [ih1], ?_, ?_⟩
    · simp only [List.map_cons, List.flatMap_cons, ih2, htake.1]
      exact List.take_append_drop nchan data
    · intro px hpx
      rcases List.mem_cons.mp hpx with hq | hq
      · rw [hq]
        exact ⟨htake.2.1, htake.2.2⟩
      · exact ih3 px hq

theorem chunks_spec (nchan : Nat) (hch : nchan = 3 ∨ nchan = 4)
    (np : Nat) (data : List Nat) (hlen : data.length = np * nchan)
    (hb : ∀ b ∈ data, b < 256) :
    ((chunksExact nchan data).map (toPix nchan)).length = np ∧
    ((chunksExact nchan data).map (toPix nchan)).flatMap
        (pixBytes nchan) = data ∧
    pixListOK nchan ((chunksExact nchan data).map (toPix nchan)) := by
  obtain ⟨h1, h2, h3⟩ :=
    chunksGo_spec nchan hch np data.length data hlen (Nat.le_refl _) hb
  exact ⟨by simpa using h1, h2, h3⟩
theorem islandBytes_length (isl : Island)
    (h : isl.topLeft.isSome && isl.btmRight.isSome) :
    (islandBytes isl).length = 16 := by
  match htl : isl.topLeft, hbr : isl.btmRight with
  | some tl, some br =>
    simp only [islandBytes, htl, hbr, be32, List.length_append,
      List.length_cons, List.length_nil]
  | none, _ => rw [htl] at h; simp at h
  | _, none => rw [hbr] at h; simp at h

theorem chunksAllGo_eight (f : Nat) (t : List Nat) (ht : t ≠ [])
    (h16 : t.length ≤ 16) (hf : t.length ≤ f) :
    chunksAllGo 16 f t = [t] := by
  obtain ⟨f', rfl⟩ : ∃ f', f = f' + 1 :=
    ⟨f - 1, by have := List.length_pos.mpr ht; omega⟩
  show (if 16 = 0 ∨ t = [] then [] else
      t.take 16 :: chunksAllGo 16 f' (t.drop 16)) = [t]
  rw [if_neg (by simp [ht]), List.take_of_length_le h16,
    List.drop_eq_nil_of_le h16]
  have hnil : chunksAllGo 16 f' [] = [] := by
    cases f' with
    | zero => rfl
    | succ f'' =>
      show (if 16 = 0 ∨ ([] : List Nat) = [] then [] else _) = []
      rw [if_pos (Or.inr rfl)]
  rw [hnil]

theorem chunksAll_blocks :
    ∀ (blocks : List (List Nat)) (f : Nat) (t : List Nat),
      (∀ b ∈ blocks, b.length = 16) → t ≠ [] → t.length ≤ 16 →
      (blocks.flatMap id ++ t).length ≤ f →
      chunksAllGo 16 f (blocks.flatMap id ++ t) = blocks ++ [t] := by
  intro blocks
  induction blocks with
  | nil =>
    intro f t _ ht h16 hf
    simp only [List.flatMap_nil, List.nil_append] at hf ⊢
    exact chunksAllGo_eight f t ht h16 hf
  | cons b bs ih =>
    intro f t hb ht h16 hf
    have hbl : b.length = 16 := hb b (List.mem_cons_self b bs)
    rw [List.flatMap_cons, List.append_assoc] at hf ⊢
    simp only [id_eq] at hf ⊢
    have hlen : (b ++ (bs.flatMap id ++ t)).length =
        16 + (bs.flatMap id ++ t).length := by
      simp [hbl]
    obtain ⟨f', rfl⟩ : ∃ f', f = f' + 1 := ⟨f - 1, by omega⟩
    show (if 16 = 0 ∨ b ++ (bs.flatMap id ++ t) = [] then [] else
        (b ++ (bs.flatMap id ++ t)).take 16 ::
          chunksAllGo 16 f' ((b ++ (bs.flatMap id ++ t)).drop 16)) = _
    rw [if_neg (by
      simp only [not_or]
      refine ⟨by omega, ?_⟩
      intro hcon
      have := congrArg List.length hcon
      simp [hbl] at this)]
    rw [List.take_left' hbl, List.drop_left' hbl]
    rw [ih f' t (fun c hc => hb c (List.mem_cons_of_mem b hc)) ht h16
      (by omega)]
    rfl

theorem islandsDecodeGo_prefix (n : Nat) :
    ∀ (cs ds : List (List Nat)) (cnt : Nat), (∀ c ∈ cs, c.length = 16) →
      n ≤ cnt + cs.length →
      ∃ l, islandsDecodeGo n (cs ++ ds) cnt = .ok l := by
  intro cs
  induction cs with
  | nil =>
    intro ds cnt _ hn
    cases ds with
    | nil => exact ⟨[], rfl⟩
    | cons d ds' =>
      refine ⟨[], ?_⟩
      show (if cnt + 1 > n then Except.ok [] else _) = Except.ok []
      rw [if_pos (by simp at hn; omega)]
  | cons c cs ih =>
    intro ds cnt hc hn
    by_cases hstop : cnt + 1 > n
    · refine ⟨[], ?_⟩
      show (if cnt + 1 > n then Except.ok [] else _) = Except.ok []
      rw [if_pos hstop]
    · obtain ⟨l, hl⟩ := ih ds (cnt + 1)
        (fun c2 hc2 => hc c2 (List.mem_cons_of_mem c hc2))
        (by simp at hn ⊢; omega)
      refine ⟨⟨some (beRead (c.take 4), beRead ((c.drop 4).take 4)),
               some (beRead ((c.drop 8).take 4),
                 beRead ((c.drop 12).take 4))⟩ :: l, ?_⟩
      show (if cnt + 1 > n then Except.ok [] else
          if c.length = 16 then
            match islandsDecodeGo n (cs ++ ds) (cnt + 1) with
            | .error e => .error e
            | .ok tl =>
              .ok (⟨some (beRead (c.take 4), beRead ((c.drop 4).take 4)),
                    some (beRead ((c.drop 8).take 4),
                      beRead ((c.drop 12).take 4))⟩ :: tl)
          else .error .panicked) = _
      rw [if_neg hstop, if_pos (hc c (List.mem_cons_self c cs)), hl]
theorem islandsDecode_ok (isls : List Island)
    (hall : ∀ i ∈ isls, (i.topLeft.isSome && i.btmRight.isSome) = true)
    (m : Nat) (hm : m ≤ isls.length) :
    ∃ l, islandsDecode (isls.flatMap islandBytes ++ qoiPadding) m =
      .ok l := by
  have hfm : (isls.map islandBytes).flatMap id = isls.flatMap islandBytes := by
    simp [List.flatMap_def, List.map_id]
  have hlens : ∀ b ∈ isls.map islandBytes, b.length = 16 := by
    intro b hb
    obtain ⟨i, hi, rfl⟩ := List.mem_map.mp hb
    exact islandBytes_length i (hall i hi)
  have hchunks : chunksAll 16 (isls.flatMap islandBytes ++ qoiPadding) =
      isls.map islandBytes ++ [qoiPadding] := by
    rw [chunksAll, ← hfm]
    exact chunksAll_blocks (isls.map islandBytes) _ qoiPadding hlens
      (by simp [qoiPadding]) (by simp [qoiPadding]) (Nat.le_refl _)
  rw [islandsDecode, hchunks]
  exact islandsDecodeGo_prefix m (isls.map islandBytes) [qoiPadding] 0
    hlens (by simp only [List.length_map, Nat.zero_add]; omega)
/-- C1 (amended): the round-trip holds on every valid input that the encoder
actually accepts: whenever `encodeQoi` succeeds on a byte buffer (so the
dimensions are non-degenerate, the buffer length matches an inferred channel
count of 3 or 4, and the island records fit the pre-allocated budget),
decoding its output reconstructs exactly the original pixel buffer. -/
theorem qoi_roundtrip_ok (data : List Nat) (w h : Nat) (out : List Nat)
    (hbytes : ∀ b ∈ data, b < 256)
    (henc : encodeQoi data w h = .ok out) :
    ∃ hdr isls, decodeQoi out = .ok (hdr, data, isls) := by
  by_cases hz : w * h = 0
  · rw [encodeQoi, headerTryNew, if_pos hz] at henc
    simp at henc
  by_cases hmax : w * h > qoiPixelsMax
  · rw [encodeQoi, headerTryNew, if_neg hz, if_pos hmax] at henc
    simp at henc
  have hHT : headerTryNew w h = .ok () := by
    rw [headerTryNew, if_neg hz, if_neg hmax]
  rw [encodeQoi] at henc
  simp only [hHT] at henc
  set N := data.length / (w * h) with hN
  set pxs := (chunksExact N data).map (toPix N) with hpxs
  set opB := (encLoop N encInit pxs).flatMap serOp with hopB
  set isls := encodeIslands N w pxs with hisls
  set islB := isls.flatMap islandBytes with hislB
  split_ifs at henc with hlen hch hop hpop hcap1 hcap2
  all_goals try exact Except.noConfusion henc
  rw [Except.ok.injEq] at henc
  set neLen := opB.length + islB.length + qoiPaddingSize with hneLen
  have hlen' : w * h * N = data.length := not_ne_iff.mp hlen
  have hch' : N = 3 ∨ N = 4 := hch
  have hall : ∀ i ∈ isls, (i.topLeft.isSome && i.btmRight.isSome) = true :=
    List.all_eq_true.mp hpop
  have hw0 : w ≠ 0 := fun hc => hz (by rw [hc, Nat.zero_mul])
  have hh0 : h ≠ 0 := fun hc => hz (by rw [hc, Nat.mul_zero])
  have hwh : w * h ≤ 400000000 := by
    have := Nat.le_of_not_lt hmax
    simpa [qoiPixelsMax] using this
  have hwlt : w < 2 ^ 32 :=
    lt_of_le_of_lt
      (le_trans (Nat.le_mul_of_pos_right w (Nat.pos_of_ne_zero hh0)) hwh)
      (by norm_num)
  have hhlt : h < 2 ^ 32 :=
    lt_of_le_of_lt
      (le_trans (Nat.le_mul_of_pos_left h (Nat.pos_of_ne_zero hw0)) hwh)
      (by norm_num)
  have hN256 : N % 256 = N := Nat.mod_eq_of_lt (by rcases hch' with hc | hc <;>
    rw [hc] <;> norm_num)
  obtain ⟨hplen, hflat, hpok⟩ :=
    chunks_spec N hch' (w * h) data hlen'.symm hbytes
  rw [← hpxs] at hplen hflat hpok
  have hdec : decLoopGo (w * h) decInit (opB ++ (islB ++ qoiPadding))
      (0 + pxs.length) =
      some (List.replicate 0 pixInit ++ pxs, islB ++ qoiPadding) :=
    roundtrip_loop N pxs encInit decInit (islB ++ qoiPadding) (w * h)
      (encInit_ok N) rfl rfl hpok (fun hcon => absurd rfl hcon)
      (by show 0 + pxs.length ≤ w * h; omega)
  rw [Nat.zero_add, hplen] at hdec
  simp only [List.replicate_zero, List.nil_append] at hdec
  obtain ⟨isl2, hisl2⟩ :=
    islandsDecode_ok isls hall (isls.length % 2 ^ 32) (Nat.mod_le _ _)
  rw [← hislB] at hisl2
  have hout : headerBytes w h N 0 neLen isls.length ++
      (opB ++ (islB ++ qoiPadding)) = out := by
    rw [← henc]
    simp [List.append_assoc]
  obtain ⟨hlen22, htk4, hwf, hhf, hchf, hcsf, hnef, hnif, hdrop22⟩ :=
    header_fields w h N 0 neLen isls.length (opB ++ (islB ++ qoiPadding))
  rw [hout] at hlen22 htk4 hwf hhf hchf hcsf hnef hnif hdrop22
  have e1 : ¬ (out.length < qoiHeaderSize) := by
    rw [hlen22]
    show ¬ (22 + (opB ++ (islB ++ qoiPadding)).length < 22)
    omega
  have e2 : ¬ (out.take 4 ≠ qoiMagic) := by
    rw [htk4]
    exact not_not_intro rfl
  refine ⟨⟨w, h, N, 0, neLen % 2 ^ 32, isls.length % 2 ^ 32⟩, isl2, ?_⟩
  rw [decodeQoi, if_neg e1, if_neg e2]
  simp only [qoiHeaderSize, hwf, hhf, hchf, hcsf, hnef, hnif, hdrop22,
    beRead_be32 (w % 2 ^ 32) (Nat.mod_lt _ (by norm_num)),
    beRead_be32 (h % 2 ^ 32) (Nat.mod_lt _ (by norm_num)),
    beRead_be32 (neLen % 2 ^ 32) (Nat.mod_lt _ (by norm_num)),
    beRead_be32 (isls.length % 2 ^ 32) (Nat.mod_lt _ (by norm_num)),
    beRead_be32 w hwlt, beRead_be32 h hhlt,
    Nat.mod_eq_of_lt hwlt, Nat.mod_eq_of_lt hhlt, hN256, Nat.zero_mod]
  rw [if_neg (not_not_intro hch'), if_neg (not_or.mpr ⟨hz, hmax⟩)]
  simp only [decLoop, hdec, hisl2, hflat]

/-- C1 witness: the amended round-trip at the concrete 1x1 all-zero 3-channel
image, with every hypothesis discharged by evaluation. -/
theorem qoi_roundtrip_ok_witness :
    ∃ out, encodeQoi [0, 0, 0] 1 1 = Except.ok out ∧
      ∃ hdr isls, decodeQoi out = .ok (hdr, [0, 0, 0], isls) :=
  ⟨_, rfl, qoi_roundtrip_ok [0, 0, 0] 1 1 _ (by decide) rfl⟩
